import Mathlib

/-!
# Verification of `pypi_proxy.py`

A shallow embedding, in Lean 4, of the core of the dummy-PyPI proxy server
(`src/pypi_proxy.py`): version resolution (`find_compatible_version` and its
process-wide cache), metadata generation (`generate_metadata_file`), wheel
synthesis (`create_dummy_wheel` / `file_hash_record`), request-path
classification (`_extract_package_name`), and the two dummy-serving handlers
(`_serve_dummy_simple_page`, `_serve_dummy_package`).

Network effects (`fetch_package_info`, `get_real_package_metadata`) are
modelled by passing the fetch outcome as an explicit `Option` argument;
the process-wide `VERSION_CACHE` dictionary is modelled by explicit state
passing of an association list.

The third-party `packaging` library is embedded for the fragment the proxy
exercises: versions of the form `N(.N)*` with an optional `a|b|rc` numeric
pre-release suffix (no epochs, post/dev releases, local versions or wildcard
specifiers), and specifier sets that are comma-separated lists of
`==, !=, <=, >=, <, >, ~=` comparisons.  Unsupported inputs fail to parse,
which the resolver's `try/except` turns into its fallback result, exactly as
an exception from `packaging` would.
-/

/-! ## Characters and small string utilities

All string processing is done on `List Char` with structural recursion so
that every definition reduces in the kernel. -/

/-- Digit character to its value (only meaningful for `'0'..'9'`). -/
def digitVal (c : Char) : Nat := c.toNat - 48

/-- Value of a digit string, most significant first (`int("...")`). -/
def digitsToNat (ds : List Char) : Nat := ds.foldl (fun a c => a * 10 + digitVal c) 0

/-- `int(chunk)` for a chunk that must be a nonempty run of ASCII digits. -/
def parseNatChunk (cs : List Char) : Option Nat :=
  if cs ≠ [] ∧ cs.all Char.isDigit then some (digitsToNat cs) else none

/-- Decimal digits of `n`, most significant first, via an explicit fuel
argument (`fuel > n` suffices) so that the definition is structural. -/
def natToCharsAux : Nat → Nat → List Char → List Char
  | 0, _, acc => acc
  | _ + 1, 0, acc => acc
  | fuel + 1, n + 1, acc =>
    natToCharsAux fuel ((n + 1) / 10) (Char.ofNat (48 + (n + 1) % 10) :: acc)

/-- `str(n)` for a natural number. -/
def natToChars (n : Nat) : List Char :=
  if n = 0 then ['0'] else natToCharsAux (n + 1) n []

/-- `str(n)` as a `String`. -/
def natStr (n : Nat) : String := String.mk (natToChars n)

/-- Split a character list on every occurrence of a single character
(Python `"...".split(c)`): the result is always nonempty. -/
def splitOnChar (sep : Char) : List Char → List (List Char)
  | [] => [[]]
  | c :: rest =>
    let r := splitOnChar sep rest
    if c = sep then [] :: r
    else
      match r with
      | [] => [[c]]
      | h :: t => (c :: h) :: t

theorem splitOnChar_ne_nil (sep : Char) (cs : List Char) : splitOnChar sep cs ≠ [] := by
  cases cs with
  | nil => simp [splitOnChar]
  | cons c rest =>
    simp only [splitOnChar]
    split
    · simp
    · cases splitOnChar sep rest <;> simp

/-- Python's whitespace for `str.strip()` / `re` class `\s`. -/
def isPySpace (c : Char) : Bool :=
  c = ' ' || c = '\t' || c = '\n' || c = '\x0d' || c = '\x0b' || c = '\x0c'

/-- Python `str.strip()`. -/
def pyStrip (cs : List Char) : List Char :=
  ((cs.dropWhile isPySpace).reverse.dropWhile isPySpace).reverse

/-- PEP 503 name canonicalization `name.lower().replace('_', '-')` on chars. -/
def canonChars (cs : List Char) : List Char :=
  cs.map (fun c => if c.toLower = '_' then '-' else c.toLower)

/-- PEP 503 name canonicalization on strings. -/
def canonStr (s : String) : String := String.mk (canonChars s.data)

/-! ## PEP 440 versions (`packaging.version.Version`), modelled fragment -/

/-- Pre-release phase: `a` (alpha) < `b` (beta) < `rc`. -/
inductive PrePhase
  | alpha
  | beta
  | rc
deriving DecidableEq

/-- A parsed version: nonempty release segments plus an optional
pre-release marker.  (`Version("1.2.0rc3")` is `⟨[1,2,0], some (.rc, 3)⟩`.) -/
structure PyVersion where
  release : List Nat
  pre : Option (PrePhase × Nat)
deriving DecidableEq

/-- `Version.is_prerelease` for the modelled fragment. -/
def isPrerelease (v : PyVersion) : Bool := v.pre.isSome

/-- Parse the compact pre-release phase spellings that `str(Version)` emits. -/
def parsePhase : List Char → Option PrePhase
  | ['a'] => some .alpha
  | ['b'] => some .beta
  | ['r', 'c'] => some .rc
  | _ => none

/-- Parse the last dot-separated chunk of a version string: a digit run
optionally followed by a phase and its number (e.g. `"0rc1"`). -/
def parseLastChunk (cs : List Char) : Option (Nat × Option (PrePhase × Nat)) :=
  let p := cs.span Char.isDigit
  if p.1 = [] then none
  else
    let n := digitsToNat p.1
    if p.2 = [] then some (n, none)
    else
      let q := p.2.span Char.isAlpha
      match parsePhase q.1, parseNatChunk q.2 with
      | some ph, some k => some (n, some (ph, k))
      | _, _ => none

/-- `Version(s)` on char lists: `N(.N)*` with optional trailing `a|b|rc`
pre-release; anything else fails to parse (raises in the source, where the
caller catches and skips). -/
def parseVersionChars (cs : List Char) : Option PyVersion :=
  let parts := splitOnChar '.' cs
  match parts.getLast? with
  | none => none
  | some last =>
    match parts.dropLast.mapM parseNatChunk, parseLastChunk last with
    | some ns, some (n, pre) => some ⟨ns ++ [n], pre⟩
    | _, _ => none

/-- `Version(s)`. -/
def parseVersion (s : String) : Option PyVersion := parseVersionChars s.data

/-- Rendering of the pre-release phase, as `str(Version)` normalizes it. -/
def phaseChars : PrePhase → List Char
  | .alpha => ['a']
  | .beta => ['b']
  | .rc => ['r', 'c']

/-- Join chunks with `'.'`. -/
def joinDots : List (List Char) → List Char
  | [] => []
  | [x] => x
  | x :: y :: rest => x ++ '.' :: joinDots (y :: rest)

/-- `str(Version)`: dot-joined release segments, then the compact
pre-release suffix. -/
def verChars (v : PyVersion) : List Char :=
  joinDots (v.release.map natToChars) ++
    (match v.pre with
     | none => []
     | some (ph, k) => phaseChars ph ++ natToChars k)

/-- `str(Version)` as a `String`. -/
def verToString (v : PyVersion) : String := String.mk (verChars v)

/-! ### Version ordering

PEP 440 compares release tuples componentwise after padding the shorter one
with zeros, and puts a pre-release below the corresponding final release.
We realize this with an injective-up-to-padding key into `List Nat` under the
lexicographic order: trailing zeros are stripped (so padding-equal releases
get equal keys), every segment is shifted by one, and a `0` sentinel followed
by the pre-release rank and number is appended (the sentinel sorts any proper
prefix below its extensions, matching zero-padding). -/

/-- Strip trailing zero segments. -/
def stripZeros (l : List Nat) : List Nat := (l.reverse.dropWhile (· = 0)).reverse

/-- Rank and number of the pre-release marker; `none` (a final release)
ranks above every phase. -/
def preKey : Option (PrePhase × Nat) → List Nat
  | none => [3, 0]
  | some (.alpha, k) => [0, k]
  | some (.beta, k) => [1, k]
  | some (.rc, k) => [2, k]

/-- Total-order key of a version. -/
def verKey (v : PyVersion) : List Nat :=
  (stripZeros v.release).map (· + 1) ++ 0 :: preKey v.pre

/-- The PEP 440 order, as `Version.__le__` on the modelled fragment. -/
def vle (v w : PyVersion) : Prop := verKey v ≤ verKey w

/-- Strict PEP 440 order. -/
def vlt (v w : PyVersion) : Prop := verKey v < verKey w

/-- PEP 440 version equality (`Version.__eq__`), which ignores padding. -/
def veq (v w : PyVersion) : Prop := verKey v = verKey w

instance (v w : PyVersion) : Decidable (vle v w) := by unfold vle; infer_instance

instance (v w : PyVersion) : Decidable (vlt v w) := by unfold vlt; infer_instance

instance (v w : PyVersion) : Decidable (veq v w) := by unfold veq; infer_instance

theorem vle_refl (v : PyVersion) : vle v v := le_refl _

theorem vle_trans {u v w : PyVersion} (h1 : vle u v) (h2 : vle v w) : vle u w :=
  le_trans h1 h2

theorem vle_total (v w : PyVersion) : vle v w ∨ vle w v := le_total _ _

/-! ### Descending sort (`parsed_versions.sort(reverse=True)`) -/

/-- The relation "sorts before" of the descending sort. -/
def descRel (a b : PyVersion) : Prop := vle b a

instance : DecidableRel descRel := fun a b => by unfold descRel; infer_instance

instance : IsTotal PyVersion descRel :=
  ⟨fun a b => (vle_total b a).imp id id⟩

instance : IsTrans PyVersion descRel :=
  ⟨fun _ _ _ h1 h2 => vle_trans h2 h1⟩

/-- `list.sort(reverse=True)`: sort into descending PEP 440 order. -/
def sortDesc (l : List PyVersion) : List PyVersion := l.insertionSort descRel

theorem sortDesc_sorted (l : List PyVersion) : List.Sorted descRel (sortDesc l) :=
  List.sorted_insertionSort descRel l

theorem sortDesc_perm (l : List PyVersion) : (sortDesc l).Perm l :=
  List.perm_insertionSort descRel l

theorem mem_sortDesc {l : List PyVersion} {v : PyVersion} : v ∈ sortDesc l ↔ v ∈ l :=
  (sortDesc_perm l).mem_iff

theorem sortDesc_eq_nil_iff {l : List PyVersion} : sortDesc l = [] ↔ l = [] := by
  constructor
  · intro h
    exact ((h ▸ sortDesc_perm l : ([] : List PyVersion).Perm l)).symm.eq_nil
  · intro h
    subst h
    rfl

/-- In a descending-sorted list, the first element `find?` returns for a
predicate is maximal among all elements satisfying it. -/
theorem sorted_find?_max {l : List PyVersion} {p : PyVersion → Bool} {x : PyVersion}
    (hs : List.Sorted descRel l) (h : l.find? p = some x) :
    ∀ y ∈ l, p y = true → vle y x := by
  induction l with
  | nil => simp at h
  | cons a t ih =>
    rw [List.sorted_cons] at hs
    intro y hy hpy
    rw [List.find?_cons] at h
    by_cases hpa : p a = true
    · simp only [hpa] at h
      cases h
      rcases List.mem_cons.mp hy with hy | hy
      · exact hy ▸ vle_refl _
      · exact hs.1 y hy
    · rw [Bool.not_eq_true] at hpa
      simp only [hpa] at h
      rcases List.mem_cons.mp hy with hy | hy
      · rw [hy] at hpy
        exact absurd hpy (by simp [hpa])
      · exact ih hs.2 h y hy hpy

/-- The head of a descending-sorted list is maximal. -/
theorem sorted_head_max {v0 : PyVersion} {t : List PyVersion}
    (hs : List.Sorted descRel (v0 :: t)) : ∀ y ∈ v0 :: t, vle y v0 := by
  rw [List.sorted_cons] at hs
  intro y hy
  rcases List.mem_cons.mp hy with hy | hy
  · exact hy ▸ vle_refl _
  · exact hs.1 y hy

theorem find?_none_all {l : List PyVersion} {p : PyVersion → Bool}
    (h : l.find? p = none) : ∀ y ∈ l, p y = false := by
  intro y hy
  exact Bool.eq_false_iff.mpr (List.find?_eq_none.mp h y hy)

/-! ## Specifiers (`packaging.specifiers`), modelled fragment

A `SpecifierSet` is a comma-separated list of comparisons.  Its membership
test (`version in specifier_set`) rejects pre-release versions unless the
set itself mentions a pre-release version as an operand (packaging's
`SpecifierSet.contains` with `prereleases=None`, which consults the set's
`prereleases` property); the per-operator comparisons below follow
packaging's `_compare_*` implementations restricted to the modelled
version fragment (no posts/devs/locals/wildcards). -/

/-- A comparison operator of a version specifier. -/
inductive SpecOp
  | opEq
  | opNe
  | opLe
  | opGe
  | opLt
  | opGt
  | opCompat
deriving DecidableEq

/-- One comparison of a specifier set, e.g. `>=1.5`. -/
structure Specifier where
  op : SpecOp
  ver : PyVersion
deriving DecidableEq

/-- First `n` elements, padding with zero segments (used by `~=`, whose
prefix match works on the zero-padded release tuple). -/
def padTake (n : Nat) (l : List Nat) : List Nat := (l ++ List.replicate n 0).take n

/-- packaging's per-operator comparison of a candidate `v` against the
specifier's operand `w` (arithmetic PEP 440 comparisons; `<` additionally
refuses a pre-release of the very release it excludes). -/
def specOpSat (op : SpecOp) (w v : PyVersion) : Bool :=
  match op with
  | .opEq => decide (veq v w)
  | .opNe => !decide (veq v w)
  | .opLe => decide (vle v w)
  | .opGe => decide (vle w v)
  | .opLt =>
    decide (vlt v w) &&
      !(w.pre.isNone && v.pre.isSome && decide (stripZeros v.release = stripZeros w.release))
  | .opGt => decide (vlt w v)
  | .opCompat =>
    decide (vle w v) && decide (padTake (w.release.length - 1) v.release = w.release.dropLast)

/-- The raw conjunction of all comparisons of the set — this is the reading
the spec's words take for "satisfies the constraint (pre-release allowed)". -/
def specAllOps (sps : List Specifier) (v : PyVersion) : Bool :=
  sps.all fun s => specOpSat s.op s.ver v

/-- `SpecifierSet.prereleases`: true iff some `==, >=, <=, ~=` comparison
has a pre-release operand. -/
def specSetHasPreOperand (sps : List Specifier) : Bool :=
  sps.any fun s =>
    s.ver.pre.isSome &&
      (s.op = SpecOp.opEq || s.op = SpecOp.opGe || s.op = SpecOp.opLe || s.op = SpecOp.opCompat)

/-- `version in specifier_set` (packaging `SpecifierSet.__contains__`):
pre-release candidates are rejected unless the set names a pre-release. -/
def specSetContains (sps : List Specifier) (v : PyVersion) : Bool :=
  (!isPrerelease v || specSetHasPreOperand sps) && specAllOps sps v

/-- Parse the operator of one specifier (packaging's grammar restricted to
the comparisons the fragment supports; `===` is out of the fragment). -/
def parseOp : List Char → Option (SpecOp × List Char)
  | '=' :: '=' :: '=' :: _ => none
  | '=' :: '=' :: rest => some (.opEq, rest)
  | '!' :: '=' :: rest => some (.opNe, rest)
  | '<' :: '=' :: rest => some (.opLe, rest)
  | '>' :: '=' :: rest => some (.opGe, rest)
  | '~' :: '=' :: rest => some (.opCompat, rest)
  | '<' :: rest => some (.opLt, rest)
  | '>' :: rest => some (.opGt, rest)
  | _ => none

/-- Parse one comparison, e.g. `">= 1.5"`; `~=` needs at least two release
segments, exactly as packaging's specifier grammar demands. -/
def parseSpecifier (cs : List Char) : Option Specifier :=
  match parseOp (pyStrip cs) with
  | none => none
  | some (op, rest) =>
    match parseVersionChars (pyStrip rest) with
    | none => none
    | some w =>
      if op = SpecOp.opCompat ∧ w.release.length < 2 then none
      else some ⟨op, w⟩

/-- `SpecifierSet(s)`: split on commas, drop blank chunks, parse each
comparison; `none` models the `InvalidSpecifier` exception. -/
def parseSpecifierSet (s : String) : Option (List Specifier) :=
  (((splitOnChar ',' s.data).map pyStrip).filter (· ≠ [])).mapM parseSpecifier

/-! ## `find_compatible_version` (src/pypi_proxy.py lines 46-102)

`fetch_package_info` is a network effect; its outcome — `None`, or the list
of keys of the `releases` dict — is the `info` argument.  `fcvCore` returns
the result string together with the flag "this return site stored the result
in `VERSION_CACHE`" (the source's failure returns at lines 54, 58, 69 and
102 do not populate the cache; every other return does). -/

/-- The body of `find_compatible_version` after the cache lookup.  The
`try/except` around version parsing and `SpecifierSet` construction is
modelled by the `Option` results of the parsers: a failed `SpecifierSet`
parse lands in the `except` branch returning `'99.0.0'`. -/
def fcvCore (info : Option (List String)) (specifier_str : String) : String × Bool :=
  match info with
  | none => ("99.0.0", false)
  | some versions =>
    if versions = [] then ("99.0.0", false)
    else
      let parsed_versions := versions.filterMap parseVersion
      if parsed_versions = [] then ("99.0.0", false)
      else
        match sortDesc parsed_versions with
        | [] => ("99.0.0", false)
        | v0 :: rest =>
          if specifier_str = "" ∨ specifier_str = "*" then
            match (v0 :: rest).find? (fun v => !isPrerelease v) with
            | some v => (verToString v, true)
            | none => (verToString v0, true)
          else
            match parseSpecifierSet specifier_str with
            | none => ("99.0.0", false)
            | some sp =>
              match (v0 :: rest).find? (fun v => specSetContains sp v && !isPrerelease v) with
              | some v => (verToString v, true)
              | none =>
                match (v0 :: rest).find? (fun v => specSetContains sp v) with
                | some v => (verToString v, true)
                | none => (verToString v0, true)

/-- `find_compatible_version` on a cold cache: just the returned string. -/
def find_compatible_version_pure (info : Option (List String)) (specifier_str : String) :
    String :=
  (fcvCore info specifier_str).1

/-- `find_compatible_version` with the process-wide `VERSION_CACHE`
threaded through explicitly.  Returns the result, the cache afterwards, and
whether `fetch_package_info` was called (it is called exactly on a cache
miss).  The cache is an association list read through `List.lookup`;
insertion conses the new binding. -/
def resolveCached (cache : List (String × String)) (package_name specifier_str : String)
    (info : Option (List String)) : String × List (String × String) × Bool :=
  let cache_key := package_name ++ ":" ++ specifier_str
  match cache.lookup cache_key with
  | some v => (v, cache, false)
  | none =>
    let r := fcvCore info specifier_str
    (r.1, if r.2 then (cache_key, r.1) :: cache else cache, true)

/-- The parseable versions among the advertised ones (the source's
`parsed_versions` before sorting). -/
def parsedOf (versions : List String) : List PyVersion := versions.filterMap parseVersion

/-- "`r` is the rendering of a maximal element of `P` among those satisfying
`pred`" — the shape of every selection clause of the resolver. -/
def IsMaxBy (P : List PyVersion) (pred : PyVersion → Bool) (r : String) : Prop :=
  ∃ v ∈ P, pred v = true ∧ r = verToString v ∧ ∀ w ∈ P, pred w = true → vle w v

/-! ### Supporting facts about renderings and parsed versions -/

theorem digitChar_isDigit {k : Nat} (hk : k < 10) : (Char.ofNat (48 + k)).isDigit = true := by
  interval_cases k <;> decide

theorem natToCharsAux_shape (fuel : Nat) :
    ∀ n acc, ∃ ds, natToCharsAux fuel n acc = ds ++ acc ∧ ∀ c ∈ ds, c.isDigit = true := by
  induction fuel with
  | zero => intro n acc; exact ⟨[], rfl, by simp⟩
  | succ fuel ih =>
    intro n acc
    cases n with
    | zero => exact ⟨[], rfl, by simp⟩
    | succ m =>
      obtain ⟨ds, hds, hdig⟩ :=
        ih ((m + 1) / 10) (Char.ofNat (48 + (m + 1) % 10) :: acc)
      refine ⟨ds ++ [Char.ofNat (48 + (m + 1) % 10)], ?_, ?_⟩
      · simpa [natToCharsAux] using hds
      · intro c hc
        rcases List.mem_append.mp hc with hc | hc
        · exact hdig c hc
        · rcases List.mem_singleton.mp hc with rfl
          exact digitChar_isDigit (Nat.mod_lt _ (by omega))

theorem natToChars_ne_nil (n : Nat) : natToChars n ≠ [] := by
  by_cases h : n = 0
  · subst h; decide
  · obtain ⟨m, rfl⟩ := Nat.exists_eq_succ_of_ne_zero h
    obtain ⟨ds, hds, _⟩ :=
      natToCharsAux_shape (m + 1) ((m + 1) / 10) [Char.ofNat (48 + (m + 1) % 10)]
    simp only [natToChars, if_neg h, natToCharsAux, hds]
    simp

theorem natToChars_all_digit (n : Nat) : ∀ c ∈ natToChars n, c.isDigit = true := by
  by_cases h : n = 0
  · subst h; decide
  · obtain ⟨ds, hds, hdig⟩ := natToCharsAux_shape (n + 1) n []
    simp only [natToChars, if_neg h, hds, List.append_nil]
    exact hdig

theorem parseVersion_release_ne_nil {s : String} {v : PyVersion}
    (h : parseVersion s = some v) : v.release ≠ [] := by
  unfold parseVersion parseVersionChars at h
  dsimp only at h
  split at h
  · exact absurd h (by simp)
  · split at h
    · rcases h with ⟨⟩
      simp
    · exact absurd h (by simp)

theorem mem_parsedOf_release_ne_nil (versions : List String) {v : PyVersion}
    (h : v ∈ parsedOf versions) : v.release ≠ [] := by
  obtain ⟨s, _, hs⟩ := List.mem_filterMap.mp h
  exact parseVersion_release_ne_nil hs

theorem verToString_ne_empty {v : PyVersion} (h : v.release ≠ []) : verToString v ≠ "" := by
  obtain ⟨r, rs, hr⟩ := List.exists_cons_of_ne_nil h
  intro habs
  have hdata : verChars v = [] := congrArg String.data habs
  rw [verChars, hr] at hdata
  rcases List.append_eq_nil.mp hdata with ⟨hjoin, -⟩
  rw [List.map_cons] at hjoin
  cases hmap : (rs.map natToChars) with
  | nil => rw [hmap, joinDots] at hjoin; exact natToChars_ne_nil r hjoin
  | cons y ys =>
    rw [hmap, joinDots] at hjoin
    rcases List.append_eq_nil.mp hjoin with ⟨hr0, hdot⟩
    simp at hdot

/-! ### C1, C5, C6: theorems about the resolver -/

/-- A `find?` hit on the descending-sorted versions is a maximal
satisfying element. -/
theorem find?_isMaxBy {P : List PyVersion} {p : PyVersion → Bool} {x : PyVersion}
    (h : (sortDesc P).find? p = some x) : IsMaxBy P p (verToString x) := by
  refine ⟨x, mem_sortDesc.mp (List.mem_of_find?_eq_some h), List.find?_some h, rfl, ?_⟩
  intro w hw hpw
  exact sorted_find?_max (sortDesc_sorted P) h w (mem_sortDesc.mpr hw) hpw

/-- The head of the descending-sorted versions is maximal overall. -/
theorem head_isMaxBy {P : List PyVersion} {v0 : PyVersion} {rest : List PyVersion}
    (h : sortDesc P = v0 :: rest) : IsMaxBy P (fun _ => true) (verToString v0) := by
  refine ⟨v0, mem_sortDesc.mp (h ▸ List.mem_cons_self v0 rest), rfl, rfl, ?_⟩
  intro w hw _
  exact sorted_head_max (h ▸ sortDesc_sorted P) w (h ▸ mem_sortDesc.mpr hw)

/-- The two selection clauses for an empty/wildcard constraint (claim C1). -/
def EmptyConstraintSelection (versions : List String) (R : String) : Prop :=
  ((∃ v ∈ parsedOf versions, isPrerelease v = false) →
    IsMaxBy (parsedOf versions) (fun v => !isPrerelease v) R) ∧
  ((∀ v ∈ parsedOf versions, isPrerelease v = true) →
    IsMaxBy (parsedOf versions) (fun _ => true) R)

/-- The three selection clauses for a present, well-formed constraint, with
constraint membership as the version library computes it (claim C1 as
amended). -/
def ConstrainedSelection (versions : List String) (sp : List Specifier) (R : String) : Prop :=
  ((∃ v ∈ parsedOf versions, (specSetContains sp v && !isPrerelease v) = true) →
    IsMaxBy (parsedOf versions) (fun v => specSetContains sp v && !isPrerelease v) R) ∧
  ((∀ v ∈ parsedOf versions, (specSetContains sp v && !isPrerelease v) = false) →
    (∃ v ∈ parsedOf versions, specSetContains sp v = true) →
    IsMaxBy (parsedOf versions) (fun v => specSetContains sp v) R) ∧
  ((∀ v ∈ parsedOf versions, specSetContains sp v = false) →
    IsMaxBy (parsedOf versions) (fun _ => true) R)

/-- C1 (amended): with at least one parseable upstream version, the resolver
returns, for an empty or wildcard constraint, the highest non-pre-release
version — or the highest version overall when every parseable version is a
pre-release; for a present, well-formed constraint it returns the highest
non-pre-release version the constraint admits, else the highest version the
constraint admits (where the version library admits pre-releases only if the
constraint itself names a pre-release version), else the highest version
overall, ignoring the constraint. -/
theorem fcv_selection_amended (versions : List String) (specifier_str R : String)
    (hne : parsedOf versions ≠ [])
    (hR : R = find_compatible_version_pure (some versions) specifier_str) :
    ((specifier_str = "" ∨ specifier_str = "*") → EmptyConstraintSelection versions R) ∧
    (∀ sp, ¬(specifier_str = "" ∨ specifier_str = "*") →
      parseSpecifierSet specifier_str = some sp → ConstrainedSelection versions sp R) := by
  have hvs : versions ≠ [] := by
    intro h
    exact hne (by simp [parsedOf, h])
  have hpar : versions.filterMap parseVersion ≠ [] := hne
  obtain ⟨v0, rest, hsort⟩ :
      ∃ v0 rest, sortDesc (versions.filterMap parseVersion) = v0 :: rest := by
    cases hs : sortDesc (versions.filterMap parseVersion) with
    | nil => exact absurd (sortDesc_eq_nil_iff.mp hs) hpar
    | cons a t => exact ⟨a, t, rfl⟩
  constructor
  · intro hcase
    cases hfind : (v0 :: rest).find? (fun v => !isPrerelease v) with
    | some x =>
      have hRx : R = verToString x := by
        rw [hR]
        simp only [find_compatible_version_pure, fcvCore, if_neg hvs, if_neg hpar, hsort,
          if_pos hcase, hfind]
      constructor
      · intro _
        rw [hRx]
        exact find?_isMaxBy (hsort ▸ hfind)
      · intro hall
        have hx : x ∈ versions.filterMap parseVersion :=
          mem_sortDesc.mp (hsort ▸ List.mem_of_find?_eq_some hfind)
        have hpx := List.find?_some hfind
        rw [hall x hx] at hpx
        exact absurd hpx (by decide)
    | none =>
      have hRx : R = verToString v0 := by
        rw [hR]
        simp only [find_compatible_version_pure, fcvCore, if_neg hvs, if_neg hpar, hsort,
          if_pos hcase, hfind]
      constructor
      · rintro ⟨v, hv, hvpre⟩
        have hall := find?_none_all hfind v (hsort ▸ mem_sortDesc.mpr hv)
        rw [hvpre] at hall
        exact absurd hall (by decide)
      · intro _
        rw [hRx]
        exact head_isMaxBy hsort
  · intro sp hncase hsp
    cases hfind1 : (v0 :: rest).find? (fun v => specSetContains sp v && !isPrerelease v) with
    | some x =>
      have hRx : R = verToString x := by
        rw [hR]
        simp only [find_compatible_version_pure, fcvCore, if_neg hvs, if_neg hpar, hsort,
          if_neg hncase, hsp, hfind1]
      refine ⟨fun _ => hRx ▸ find?_isMaxBy (hsort ▸ hfind1), ?_, ?_⟩
      · intro hnone1 _
        have hx : x ∈ versions.filterMap parseVersion :=
          mem_sortDesc.mp (hsort ▸ List.mem_of_find?_eq_some hfind1)
        have hpx := List.find?_some hfind1
        rw [hnone1 x hx] at hpx
        exact absurd hpx (by decide)
      · intro hnone
        have hx : x ∈ versions.filterMap parseVersion :=
          mem_sortDesc.mp (hsort ▸ List.mem_of_find?_eq_some hfind1)
        have hpx := List.find?_some hfind1
        have h1 : specSetContains sp x = true := by
          have := hpx
          simp only [Bool.and_eq_true] at this
          exact this.1
        rw [hnone x hx] at h1
        exact absurd h1 (by decide)
    | none =>
      cases hfind2 : (v0 :: rest).find? (fun v => specSetContains sp v) with
      | some y =>
        have hRy : R = verToString y := by
          rw [hR]
          simp only [find_compatible_version_pure, fcvCore, if_neg hvs, if_neg hpar, hsort,
            if_neg hncase, hsp, hfind1, hfind2]
        refine ⟨?_, fun _ _ => hRy ▸ find?_isMaxBy (hsort ▸ hfind2), ?_⟩
        · rintro ⟨v, hv, hvp⟩
          have hall := find?_none_all hfind1 v (hsort ▸ mem_sortDesc.mpr hv)
          rw [hvp] at hall
          exact absurd hall (by decide)
        · intro hnone
          have hy : y ∈ versions.filterMap parseVersion :=
            mem_sortDesc.mp (hsort ▸ List.mem_of_find?_eq_some hfind2)
          have hpy := List.find?_some hfind2
          rw [hnone y hy] at hpy
          exact absurd hpy (by decide)
      | none =>
        have hR0 : R = verToString v0 := by
          rw [hR]
          simp only [find_compatible_version_pure, fcvCore, if_neg hvs, if_neg hpar, hsort,
            if_neg hncase, hsp, hfind1, hfind2]
        refine ⟨?_, ?_, fun _ => hR0 ▸ head_isMaxBy hsort⟩
        · rintro ⟨v, hv, hvp⟩
          have hall := find?_none_all hfind1 v (hsort ▸ mem_sortDesc.mpr hv)
          rw [hvp] at hall
          exact absurd hall (by decide)
        · rintro - ⟨v, hv, hvp⟩
          have hall := find?_none_all hfind2 v (hsort ▸ mem_sortDesc.mpr hv)
          rw [hvp] at hall
          exact absurd hall (by decide)

-- Spec §8 sample behaviors of the resolver, checked against the embedding.
example : find_compatible_version_pure (some ["2.1.0", "2.0.0", "1.9.0rc1"]) "" = "2.1.0" := by
  decide

example : find_compatible_version_pure (some ["1.0.0rc1"]) "" = "1.0.0rc1" := by decide

example : find_compatible_version_pure (some ["2.9.0", "2.8.0"]) ">=3.0" = "2.9.0" := by decide

/-- The parsed specifier set of a constraint string, defaulting to the empty
set (only used to state concrete counterexamples compactly). -/
def spOfStr (s : String) : List Specifier := (parseSpecifierSet s).getD []

/-- C1 (counterexample to the claim as stated): upstream versions
`3.0.0, 2.0.0rc1` with constraint `>=1.5,<2.5`.  No version satisfies the
constraint together with being a final release; `2.0.0rc1` satisfies every
comparison of the constraint ("pre-release allowed"), so the claim demands
it be returned — but the code returns `"3.0.0"`, because the version
library's membership test rejects pre-releases for a constraint that names
no pre-release, making the claimed second pass fall through. -/
theorem fcv_claimed_prerelease_clause_false :
    find_compatible_version_pure (some ["3.0.0", "2.0.0rc1"]) ">=1.5,<2.5" = "3.0.0" ∧
    (parseSpecifierSet ">=1.5,<2.5").isSome = true ∧
    (∀ v ∈ parsedOf ["3.0.0", "2.0.0rc1"],
      ¬(specAllOps (spOfStr ">=1.5,<2.5") v = true ∧ isPrerelease v = false)) ∧
    (∃ v ∈ parsedOf ["3.0.0", "2.0.0rc1"], specAllOps (spOfStr ">=1.5,<2.5") v = true) ∧
    (∀ v ∈ parsedOf ["3.0.0", "2.0.0rc1"],
      specAllOps (spOfStr ">=1.5,<2.5") v = true → verToString v ≠ "3.0.0") := by
  decide

/-- Witness for C1's amended theorem at the spec's own example: constraint
`>=3.0` over `2.9.0, 2.8.0` — nothing satisfies, so the returned `2.9.0` is
the highest version overall. -/
theorem fcv_selection_amended_witness :
    (parsedOf ["2.9.0", "2.8.0"] ≠ []) ∧
    ("2.9.0" = find_compatible_version_pure (some ["2.9.0", "2.8.0"]) ">=3.0") ∧
    ((((">=3.0" : String) = "" ∨ (">=3.0" : String) = "*") →
        EmptyConstraintSelection ["2.9.0", "2.8.0"] "2.9.0") ∧
      (∀ sp, ¬((">=3.0" : String) = "" ∨ (">=3.0" : String) = "*") →
        parseSpecifierSet ">=3.0" = some sp →
        ConstrainedSelection ["2.9.0", "2.8.0"] sp "2.9.0")) :=
  ⟨by decide, by decide,
    fcv_selection_amended ["2.9.0", "2.8.0"] ">=3.0" "2.9.0" (by decide) (by decide)⟩

/-- On a cold cache the cached resolver returns exactly the pure result. -/
theorem resolveCached_nil (package_name specifier_str : String)
    (info : Option (List String)) :
    (resolveCached [] package_name specifier_str info).1 = (fcvCore info specifier_str).1 :=
  rfl

theorem fcv_fst_ne_empty (info : Option (List String)) (s : String) :
    (fcvCore info s).1 ≠ "" := by
  unfold fcvCore
  split
  · decide
  · rename_i versions
    split
    · decide
    · dsimp only
      split
      · decide
      · split
        · decide
        · rename_i hpar v0 rest hsort
          split
          · split
            · rename_i x hfind
              apply verToString_ne_empty
              apply mem_parsedOf_release_ne_nil versions
              have hx : x ∈ sortDesc (versions.filterMap parseVersion) := by
                rw [hsort]
                exact List.mem_of_find?_eq_some hfind
              exact mem_sortDesc.mp hx
            · apply verToString_ne_empty
              apply mem_parsedOf_release_ne_nil versions
              have hx : v0 ∈ sortDesc (versions.filterMap parseVersion) := by
                rw [hsort]
                exact List.mem_cons_self v0 rest
              exact mem_sortDesc.mp hx
          · split
            · decide
            · rename_i sp hsp
              split
              · rename_i x hfind
                apply verToString_ne_empty
                apply mem_parsedOf_release_ne_nil versions
                have hx : x ∈ sortDesc (versions.filterMap parseVersion) := by
                  rw [hsort]
                  exact List.mem_of_find?_eq_some hfind
                exact mem_sortDesc.mp hx
              · split
                · rename_i x hfind
                  apply verToString_ne_empty
                  apply mem_parsedOf_release_ne_nil versions
                  have hx : x ∈ sortDesc (versions.filterMap parseVersion) := by
                    rw [hsort]
                    exact List.mem_of_find?_eq_some hfind
                  exact mem_sortDesc.mp hx
                · apply verToString_ne_empty
                  apply mem_parsedOf_release_ne_nil versions
                  have hx : v0 ∈ sortDesc (versions.filterMap parseVersion) := by
                    rw [hsort]
                    exact List.mem_cons_self v0 rest
                  exact mem_sortDesc.mp hx

/-- C5: for every package name and constraint string — malformed constraints
included — and every fetch outcome, the resolver returns a nonempty version
string, and its failure paths (fetch failed, no parseable version, malformed
constraint) all return the fixed fallback `'99.0.0'`.  Totality of the
embedding is the "never raises" part: every exception the source can see is
caught and turned into one of these returns. -/
theorem resolve_always_nonempty (package_name specifier_str : String)
    (info : Option (List String)) :
    (resolveCached [] package_name specifier_str info).1 ≠ "" ∧
    (info = none → (resolveCached [] package_name specifier_str info).1 = "99.0.0") ∧
    (∀ vs, info = some vs → parsedOf vs = [] →
      (resolveCached [] package_name specifier_str info).1 = "99.0.0") ∧
    (∀ vs, info = some vs → ¬(specifier_str = "" ∨ specifier_str = "*") →
      parseSpecifierSet specifier_str = none →
      (resolveCached [] package_name specifier_str info).1 = "99.0.0") := by
  refine ⟨?_, ?_, ?_, ?_⟩
  · rw [resolveCached_nil]
    exact fcv_fst_ne_empty info specifier_str
  · rintro rfl
    rfl
  · rintro vs rfl hp
    rw [resolveCached_nil]
    by_cases hv : vs = []
    · simp only [fcvCore, if_pos hv]
    · have hp' : List.filterMap parseVersion vs = [] := hp
      simp only [fcvCore, if_neg hv, if_pos hp']
  · rintro vs rfl hns hpn
    rw [resolveCached_nil]
    by_cases hv : vs = []
    · simp only [fcvCore, if_pos hv]
    · simp only [fcvCore, if_neg hv]
      by_cases hp : List.filterMap parseVersion vs = []
      · rw [if_pos hp]
      · rw [if_neg hp]
        cases hs : sortDesc (vs.filterMap parseVersion) with
        | nil => rfl
        | cons v0 rest =>
          simp only [if_neg hns, hpn]

/-- Witness for C5 at a concrete failed fetch with a malformed constraint. -/
theorem resolve_always_nonempty_witness :
    (resolveCached [] "torch" "not-a-constraint" none).1 ≠ "" ∧
    (resolveCached [] "torch" "not-a-constraint" none).1 = "99.0.0" :=
  ⟨(resolve_always_nonempty "torch" "not-a-constraint" none).1,
    (resolve_always_nonempty "torch" "not-a-constraint" none).2.1 rfl⟩

/-- The successful selection paths all set the cached flag. -/
theorem fcv_snd_true {vs : List String} (s : String) (hp : parsedOf vs ≠ [])
    (hs : s = "" ∨ s = "*" ∨ (parseSpecifierSet s).isSome = true) :
    (fcvCore (some vs) s).2 = true := by
  have hv : vs ≠ [] := by
    intro h
    exact hp (by simp [parsedOf, h])
  obtain ⟨v0, rest, hsort⟩ :
      ∃ v0 rest, sortDesc (vs.filterMap parseVersion) = v0 :: rest := by
    cases hq : sortDesc (vs.filterMap parseVersion) with
    | nil => exact absurd (sortDesc_eq_nil_iff.mp hq) hp
    | cons a t => exact ⟨a, t, rfl⟩
  have hp' : ¬List.filterMap parseVersion vs = [] := hp
  simp only [fcvCore, if_neg hv, if_neg hp', hsort]
  by_cases hc : s = "" ∨ s = "*"
  · rw [if_pos hc]
    split <;> rfl
  · rw [if_neg hc]
    obtain ⟨sp, hsp⟩ : ∃ sp, parseSpecifierSet s = some sp := by
      rcases hs with h | h | h
      · exact absurd (Or.inl h) hc
      · exact absurd (Or.inr h) hc
      · exact Option.isSome_iff_exists.mp h
    rw [hsp]
    split
    · rename_i heq
      exact absurd heq (by simp)
    · split
      · rfl
      · split <;> rfl

/-- C6 (amended): when resolution succeeds through a selection path (fetch
returned data, at least one version parsed, and the constraint is
empty/wildcard/well-formed) — or when the key was already cached — the cache
afterwards holds the returned string under the key
`package_name ++ ":" ++ constraint`, and every later call with the same name
and constraint returns that cached value without calling the upstream fetch.
Failure-path returns (the `'99.0.0'` fallbacks) do not populate the cache. -/
theorem cache_memoization_on_success (cache : List (String × String))
    (package_name specifier_str : String) (vs : List String)
    (hp : parsedOf vs ≠ [])
    (hspec : specifier_str = "" ∨ specifier_str = "*" ∨
      (parseSpecifierSet specifier_str).isSome = true) :
    ((resolveCached cache package_name specifier_str (some vs)).2.1.lookup
        (package_name ++ ":" ++ specifier_str) =
      some (resolveCached cache package_name specifier_str (some vs)).1) ∧
    (∀ info2, resolveCached (resolveCached cache package_name specifier_str (some vs)).2.1
        package_name specifier_str info2 =
      ((resolveCached cache package_name specifier_str (some vs)).1,
       (resolveCached cache package_name specifier_str (some vs)).2.1, false)) := by
  cases hlk : cache.lookup (package_name ++ ":" ++ specifier_str) with
  | some v =>
    have hout : resolveCached cache package_name specifier_str (some vs) = (v, cache, false) := by
      simp [resolveCached, hlk]
    rw [hout]
    refine ⟨hlk, ?_⟩
    intro info2
    simp [resolveCached, hlk]
  | none =>
    have hflag := fcv_snd_true specifier_str hp hspec
    have hout : resolveCached cache package_name specifier_str (some vs) =
        ((fcvCore (some vs) specifier_str).1,
          (package_name ++ ":" ++ specifier_str, (fcvCore (some vs) specifier_str).1) :: cache,
          true) := by
      simp [resolveCached, hlk, hflag]
    rw [hout]
    constructor
    · simp [List.lookup]
    · intro info2
      simp [resolveCached, List.lookup]

/-- Witness for C6's amended theorem: a successful empty-constraint
resolution on a cold cache. -/
theorem cache_memoization_on_success_witness :
    (parsedOf ["2.1.0"] ≠ []) ∧
    (((resolveCached [] "torch" "" (some ["2.1.0"])).2.1.lookup ("torch" ++ ":" ++ "") =
        some (resolveCached [] "torch" "" (some ["2.1.0"])).1) ∧
      (∀ info2, resolveCached (resolveCached [] "torch" "" (some ["2.1.0"])).2.1
          "torch" "" info2 =
        ((resolveCached [] "torch" "" (some ["2.1.0"])).1,
         (resolveCached [] "torch" "" (some ["2.1.0"])).2.1, false))) :=
  ⟨by decide, cache_memoization_on_success [] "torch" "" ["2.1.0"] (by decide) (Or.inl rfl)⟩

/-- C6 (counterexample to the claim as stated): a call whose upstream fetch
failed returns `'99.0.0'` without recording anything, so the cache does not
hold the returned string under the key after the call returns. -/
theorem cache_not_populated_on_failure :
    (resolveCached [] "torch" "" none).1 = "99.0.0" ∧
    (resolveCached [] "torch" "" none).2.1 = [] ∧
    (resolveCached [] "torch" "" none).2.1.lookup ("torch" ++ ":" ++ "") = none := by
  decide

/-! ## The substitution policy and `generate_metadata_file`
(src/pypi_proxy.py lines 24-28, 145-238)

`get_real_package_metadata` is a network effect; its outcome is passed as
`Option RealMeta`. -/

/-- The static substitution policy `DUMMY_PACKAGES`. -/
def DUMMY_PACKAGES : List (String × String) :=
  [("torch", "auto"), ("torchvision", "auto"), ("torchaudio", "auto")]

/-- `key in DUMMY_PACKAGES` (dict key membership). -/
def isDummyKey (s : String) : Bool := (DUMMY_PACKAGES.lookup s).isSome

/-- `DUMMY_PACKAGES.get(key, default)`. -/
def dictGetD (d : List (String × String)) (k dflt : String) : String := (d.lookup k).getD dflt

/-- The record `get_real_package_metadata` produces from the registry JSON
(src/pypi_proxy.py lines 120-135). -/
structure RealMeta where
  name : String
  version : String
  summary : String
  home_page : String
  author : String
  author_email : String
  license : String
  requires_python : String
  requires_dist : List String
  classifiers : List String
  keywords : String
  description : String
  description_content_type : String
deriving DecidableEq

/-- The character class of `re.split(r'[\s\[\]<>=!;]', dep)`. -/
def depSplitChar (c : Char) : Bool :=
  isPySpace c || c = '[' || c = ']' || c = '<' || c = '>' || c = '=' || c = '!' || c = ';'

/-- `re.split(r'[\s\[\]<>=!;]', dep)[0].lower().replace('_', '-')` — the
name the source extracts from a raw requirement string (line 203). -/
def depNameOf (dep : String) : String :=
  canonStr (String.mk (dep.data.takeWhile (fun c => !depSplitChar c)))

/-- A PEP 508 package-name character. -/
def claimDepNameChar (c : Char) : Bool := c.isAlphanum || c = '-' || c = '_' || c = '.'

/-- Following the claim's words: "the dependency's canonical package name" —
the leading PEP 508 name of the requirement string, canonicalized.  Used to
compare the source's extraction against the claimed one. -/
def claimDepName (dep : String) : String :=
  canonStr (String.mk (dep.data.takeWhile claimDepNameChar))

/-- `License:` text transformation (lines 182-184): long texts are cut to
100 characters and reduced to the first line of that cut; short texts pass
through verbatim. -/
def licenseLineText (t : String) : String :=
  if 100 < t.length then String.mk ((t.data.take 100).takeWhile (fun c => c ≠ '\n')) else t

/-- `generate_metadata_file` (lines 145-238), as the list of emitted lines
(the source joins them with newlines at line 238). -/
def generateMetadataLines (package_name version : String) (include_real_deps : Bool)
    (real_meta : Option RealMeta) : List String :=
  let normalized_name := canonStr package_name
  ["Metadata-Version: 2.1", "Name: " ++ normalized_name, "Version: " ++ version] ++
    (match real_meta with
     | some m =>
       (if m.summary ≠ "" then ["Summary: " ++ m.summary]
        else ["Summary: Dummy stub for " ++ package_name]) ++
       (if m.home_page ≠ "" then ["Home-page: " ++ m.home_page] else []) ++
       (if m.author ≠ "" then ["Author: " ++ m.author] else []) ++
       (if m.author_email ≠ "" then ["Author-email: " ++ m.author_email] else []) ++
       (if m.license ≠ "" then ["License: " ++ licenseLineText m.license] else []) ++
       (if m.keywords ≠ "" then ["Keywords: " ++ m.keywords] else []) ++
       (if m.requires_python ≠ "" then ["Requires-Python: " ++ m.requires_python]
        else ["Requires-Python: >=3.8"]) ++
       (m.classifiers.take 20).map (fun c => "Classifier: " ++ c) ++
       (if include_real_deps then
          (m.requires_dist.filter (fun dep => !isDummyKey (depNameOf dep))).map
            (fun dep => "Requires-Dist: " ++ dep)
        else [])
     | none =>
       ["Summary: Dummy stub package for " ++ package_name,
        "Home-page: https://pypi.org/project/" ++ package_name ++ "/",
        "Author: PyPI Proxy",
        "Author-email: proxy@localhost",
        "License: MIT",
        "Requires-Python: >=3.8",
        "Classifier: Development Status :: 4 - Beta",
        "Classifier: Intended Audience :: Developers",
        "Classifier: Programming Language :: Python :: 3"]) ++
    ["Description-Content-Type: text/markdown", ""] ++
    ["# " ++ package_name, "",
     "**This is a dummy stub package for `" ++ package_name ++ "` version " ++ version ++ ".**",
     "",
     "Generated by PyPI Proxy to satisfy dependency requirements without",
     "downloading the full package (which may be very large).",
     "",
     "## Note",
     "",
     "This package provides minimal stubs. Importing it will raise an ImportError",
     "explaining that the real package is not installed."]

theorem takeWhile_length_le {α : Type} (p : α → Bool) (l : List α) :
    (l.takeWhile p).length ≤ l.length := by
  induction l with
  | nil => simp
  | cons a t ih =>
    rw [List.takeWhile_cons]
    split
    · simpa using ih
    · simp

/-- An upstream metadata record whose only dependency is `torch~=1.0`. -/
def metaTorchCompatDep : RealMeta :=
  ⟨"transformers", "1.0", "s", "", "", "", "", ">=3.8", ["torch~=1.0"], [], "", "", "text/markdown"⟩

/-- C3 (the code violates the claim and its own comment): with the upstream
requirement `torch~=1.0` and dependency inclusion requested, the emitted
metadata contains `Requires-Dist: torch~=1.0`, whose dependency name
canonicalizes to `torch`, a key of `DUMMY_PACKAGES`.  The source's splitting
class `[\s\[\]<>=!;]` does not break at `~`, so it extracts `torch~`, which
is not a policy key, and the cycle-breaking filter does not fire. -/
theorem metadata_emits_requires_dist_on_dummy :
    ("Requires-Dist: torch~=1.0" ∈
      generateMetadataLines "transformers" "1.0" true (some metaTorchCompatDep)) ∧
    claimDepName "torch~=1.0" = "torch" ∧
    isDummyKey (claimDepName "torch~=1.0") = true ∧
    depNameOf "torch~=1.0" = "torch~" ∧
    isDummyKey "torch~" = false := by
  decide

/-- An upstream metadata record with a short, multi-line license. -/
def metaShortMultilineLicense : RealMeta :=
  ⟨"foo", "1.0", "s", "", "", "", "MIT\nLicense", ">=3.8", [], [], "", "", "text/markdown"⟩

/-- C8 (counterexample to the claim as stated): a multi-line license of 11
characters is emitted verbatim, newline included — it is not reduced to its
first line, because the source only transforms texts longer than 100
characters. -/
theorem license_multiline_not_reduced :
    ("License: MIT\nLicense" ∈
      generateMetadataLines "foo" "1.0" false (some metaShortMultilineLicense)) ∧
    ("License: MIT" ∉
      generateMetadataLines "foo" "1.0" false (some metaShortMultilineLicense)) ∧
    '\n' ∈ ("MIT\nLicense" : String).data := by
  decide

/-- C8 (amended): for a nonempty upstream license, the emitted `License:`
text is the license itself when it has at most 100 characters (even if
multi-line); when longer, it is the first line of the first 100 characters —
in particular bounded by 100 characters and newline-free. -/
theorem license_truncation_amended (package_name version : String) (include_real_deps : Bool)
    (m : RealMeta) (hl : m.license ≠ "") :
    ∃ txt,
      ("License: " ++ txt) ∈
        generateMetadataLines package_name version include_real_deps (some m) ∧
      (m.license.length ≤ 100 → txt = m.license) ∧
      (100 < m.license.length →
        txt = String.mk ((m.license.data.take 100).takeWhile (fun c => c ≠ '\n')) ∧
        txt.length ≤ 100 ∧ '\n' ∉ txt.data) := by
  refine ⟨licenseLineText m.license, ?_, ?_, ?_⟩
  · simp [generateMetadataLines, hl]
  · intro hle
    unfold licenseLineText
    rw [if_neg (by omega)]
  · intro hgt
    refine ⟨?_, ?_, ?_⟩
    · unfold licenseLineText
      rw [if_pos hgt]
    · unfold licenseLineText
      rw [if_pos hgt]
      show ((m.license.data.take 100).takeWhile (fun c => c ≠ '\n')).length ≤ 100
      calc ((m.license.data.take 100).takeWhile (fun c => c ≠ '\n')).length
          ≤ (m.license.data.take 100).length := takeWhile_length_le _ _
        _ ≤ 100 := by simp [List.length_take]
    · unfold licenseLineText
      rw [if_pos hgt]
      intro hmem
      have hprop := List.mem_takeWhile_imp hmem
      simp at hprop

/-- Witness for C8's amended theorem at a short single-line license. -/
def metaPlainLicense : RealMeta :=
  ⟨"foo", "1.0", "s", "", "", "", "MIT", ">=3.8", [], [], "", "", "text/markdown"⟩

theorem license_truncation_amended_witness :
    metaPlainLicense.license ≠ "" ∧
    (∃ txt,
      ("License: " ++ txt) ∈ generateMetadataLines "foo" "1.0" false (some metaPlainLicense) ∧
      (metaPlainLicense.license.length ≤ 100 → txt = metaPlainLicense.license) ∧
      (100 < metaPlainLicense.license.length →
        txt = String.mk ((metaPlainLicense.license.data.take 100).takeWhile (fun c => c ≠ '\n')) ∧
        txt.length ≤ 100 ∧ '\n' ∉ txt.data)) :=
  ⟨by decide, license_truncation_amended "foo" "1.0" false metaPlainLicense (by decide)⟩

/-! ## Request-path classification (`_extract_package_name`, lines 474-489) -/

/-- The regex class `[a-zA-Z0-9_-]`. -/
def isNameChar (c : Char) : Bool := c.isAlphanum || c = '_' || c = '-'

/-- `os.path.basename`: everything after the last `/`. -/
def basenameChars (cs : List Char) : List Char := (splitOnChar '/' cs).getLastD []

/-- Split at the first occurrence of `sep` (nonempty): the characters
before it and the characters after it; `none` when `sep` does not occur
(`sep in s` is `isSome`). -/
def splitFirst (sep : List Char) : List Char → Option (List Char × List Char)
  | [] => none
  | c :: rest =>
    if sep.isPrefixOf (c :: rest) then some ([], (c :: rest).drop sep.length)
    else
      match splitFirst sep rest with
      | none => none
      | some p => some (c :: p.1, p.2)

/-- Python `sep in path`. -/
def pyContainsSub (sep path : String) : Bool := (splitFirst sep.data path.data).isSome

/-- `path.split(sep)[1]` when `len(parts) > 1`: the segment between the
first and the second occurrence of `sep`. -/
def pySplitSecond (sep cs : List Char) : Option (List Char) :=
  match splitFirst sep cs with
  | none => none
  | some p =>
    match splitFirst sep p.2 with
    | none => some p.2
    | some q => some q.1

/-- The index-listing rule (lines 477-481): the segment after the first
`/simple/`, trailing slashes stripped, cut at the first `/`, canonicalized. -/
def simpleIndexName (path : String) : Option String :=
  match pySplitSecond "/simple/".data path.data with
  | none => none
  | some seg =>
    some (canonStr (String.mk ((seg.reverse.dropWhile (· = '/')).reverse.takeWhile (· ≠ '/'))))

/-- Position `k` holds `'-'` immediately followed by a digit. -/
def hyphenDigitAt (cs : List Char) (k : Nat) : Bool :=
  match cs.drop k with
  | '-' :: d :: _ => d.isDigit
  | _ => false

/-- The greedy regex `re.match(r'^([a-zA-Z0-9_-]+)-\d', filename)`: the
group is the longest name-character prefix immediately followed by `-digit`
(Python's greedy `+` backtracks from the right), so this scans cut points
from largest to smallest. -/
def greedyNameK (cs : List Char) : Option Nat :=
  (List.range (cs.takeWhile isNameChar).length).reverse.find? fun k =>
    decide (1 ≤ k) && hyphenDigitAt cs k

/-- The artifact-download rule (lines 482-488). -/
def artifactPackageName (path : String) : Option String :=
  match greedyNameK (basenameChars path.data) with
  | none => none
  | some k => some (canonStr (String.mk ((basenameChars path.data).take k)))

/-- `_extract_package_name` (lines 474-489): `/simple/` takes precedence;
the `/packages/` rule is only consulted otherwise. -/
def extract_package_name (path : String) : Option String :=
  if pyContainsSub "/simple/" path then simpleIndexName path
  else if pyContainsSub "/packages/" path then artifactPackageName path
  else none

/-- C9: classification applies the index-listing rule to every path that
contains `/simple/` anywhere — even one that also contains `/packages/` or
ends in an artifact extension — and consults the artifact-filename rule only
when `/simple/` is absent; paths matching neither yield no package name. -/
theorem extract_name_simple_precedence (path : String) :
    (pyContainsSub "/simple/" path = true →
      extract_package_name path = simpleIndexName path) ∧
    (pyContainsSub "/simple/" path = false → pyContainsSub "/packages/" path = true →
      extract_package_name path = artifactPackageName path) ∧
    (pyContainsSub "/simple/" path = false → pyContainsSub "/packages/" path = false →
      extract_package_name path = none) := by
  refine ⟨?_, ?_, ?_⟩
  · intro h
    simp [extract_package_name, h]
  · intro h1 h2
    simp [extract_package_name, h1, h2]
  · intro h1 h2
    simp [extract_package_name, h1, h2]

/-- Witness for C9 at a path containing both `/simple/` and `/packages/`
and ending in `.whl`: the index-listing rule wins (`alpha`), although the
artifact rule would answer differently (`beta`). -/
theorem extract_name_simple_precedence_witness :
    pyContainsSub "/simple/" "/simple/alpha/packages/beta-1.whl" = true ∧
    extract_package_name "/simple/alpha/packages/beta-1.whl" =
      simpleIndexName "/simple/alpha/packages/beta-1.whl" ∧
    extract_package_name "/simple/alpha/packages/beta-1.whl" = some "alpha" ∧
    pyContainsSub "/packages/" "/simple/alpha/packages/beta-1.whl" = true ∧
    artifactPackageName "/simple/alpha/packages/beta-1.whl" = some "beta" :=
  ⟨by decide,
    (extract_name_simple_precedence "/simple/alpha/packages/beta-1.whl").1 (by decide),
    by decide, by decide, by decide⟩

/-! ### C4: which cut the artifact regex takes -/

theorem revRangeFind?_some {n k : Nat} {p : Nat → Bool}
    (h : (List.range n).reverse.find? p = some k) :
    p k = true ∧ k < n ∧ ∀ j, k < j → j < n → p j = false := by
  induction n with
  | zero => simp at h
  | succ m ih =>
    rw [List.range_succ, List.reverse_append, List.reverse_singleton,
      List.singleton_append, List.find?_cons] at h
    by_cases hpm : p m = true
    · simp only [hpm] at h
      cases h
      exact ⟨hpm, Nat.lt_succ_self _, fun j hj1 hj2 => absurd hj2 (by omega)⟩
    · rw [Bool.not_eq_true] at hpm
      simp only [hpm] at h
      obtain ⟨hp, hk, hall⟩ := ih h
      refine ⟨hp, by omega, ?_⟩
      intro j hj1 hj2
      by_cases hjm : j = m
      · exact hjm ▸ hpm
      · exact hall j hj1 (by omega)

theorem revRangeFind?_none {n : Nat} {p : Nat → Bool}
    (h : (List.range n).reverse.find? p = none) : ∀ j, j < n → p j = false := by
  intro j hj
  have := List.find?_eq_none.mp h j (by simp [List.mem_reverse, List.mem_range, hj])
  exact Bool.eq_false_iff.mpr this

theorem take_of_takeWhile_all {p : Char → Bool} {cs : List Char} {k : Nat}
    (h : k ≤ (cs.takeWhile p).length) : ∀ c ∈ cs.take k, p c = true := by
  have heq : cs.take k = (cs.takeWhile p).take k := by
    induction cs generalizing k with
    | nil => simp [List.takeWhile]
    | cons a t ih =>
      rw [List.takeWhile_cons] at h ⊢
      by_cases hpa : p a = true
      · rw [if_pos hpa] at h ⊢
        cases k with
        | zero => simp
        | succ k' =>
          rw [List.take_succ_cons, List.take_succ_cons]
          rw [List.length_cons] at h
          rw [ih (by omega)]
      · rw [if_neg hpa] at h ⊢
        simp at h
        subst h
        simp
  intro c hc
  rw [heq] at hc
  exact List.mem_takeWhile_imp (List.take_subset _ _ hc)

/-- C4 (amended): for an artifact path, the extracted package name is the
canonicalization of the LONGEST `[A-Za-z0-9_-]` prefix of the filename that
is immediately followed by a hyphen and a digit — the greedy regex cut —
every later in-run cut having no hyphen-digit, and every character of the
kept prefix being a name character; when no such cut exists, no name is
extracted. -/
theorem artifact_name_greedy (path : String) :
    (∀ name, artifactPackageName path = some name →
      ∃ k, 1 ≤ k ∧ k < ((basenameChars path.data).takeWhile isNameChar).length ∧
        hyphenDigitAt (basenameChars path.data) k = true ∧
        name = canonStr (String.mk ((basenameChars path.data).take k)) ∧
        (∀ c ∈ (basenameChars path.data).take k, isNameChar c = true) ∧
        (∀ j, k < j → j < ((basenameChars path.data).takeWhile isNameChar).length →
          hyphenDigitAt (basenameChars path.data) j = false)) ∧
    (artifactPackageName path = none →
      ∀ j, 1 ≤ j → j < ((basenameChars path.data).takeWhile isNameChar).length →
        hyphenDigitAt (basenameChars path.data) j = false) := by
  constructor
  · intro name hname
    unfold artifactPackageName at hname
    cases hk : greedyNameK (basenameChars path.data) with
    | none => rw [hk] at hname; exact absurd hname (by simp)
    | some k =>
      rw [hk] at hname
      obtain ⟨hp, hkn, hmax⟩ := revRangeFind?_some hk
      rw [Bool.and_eq_true] at hp
      obtain ⟨hk1, hhd⟩ := hp
      refine ⟨k, by simpa using of_decide_eq_true hk1, hkn, hhd, by simpa using hname.symm, ?_, ?_⟩
      · exact take_of_takeWhile_all (le_of_lt hkn)
      · intro j hj1 hj2
        have := hmax j hj1 hj2
        rcases Bool.and_eq_false_iff.mp this with h | h
        · exact absurd h (by simp; omega)
        · exact h
  · intro hnone j hj1 hj2
    unfold artifactPackageName at hnone
    cases hk : greedyNameK (basenameChars path.data) with
    | some k => rw [hk] at hnone; exact absurd hnone (by simp)
    | none =>
      have := revRangeFind?_none hk j hj2
      rcases Bool.and_eq_false_iff.mp this with h | h
      · exact absurd h (by simp; omega)
      · exact h

/-- The cut the claim describes — the FIRST hyphen-digit boundary —
following the spec's words, for comparison with the source's greedy cut. -/
def firstHyphenName (cs : List Char) : Option (List Char) :=
  match (List.range (cs.takeWhile isNameChar).length).find? fun k =>
      decide (1 ≤ k) && hyphenDigitAt cs k with
  | none => none
  | some k => some (cs.take k)

/-- C4 (counterexample to the claim as stated): for the artifact filename
`foo-1-2.whl`, the source's greedy regex extracts `foo-1` (the LAST
hyphen-digit boundary inside the name run), while the claim's "first run
that begins a version number" rule would give `foo`. -/
theorem extract_name_first_hyphen_false :
    extract_package_name "/packages/foo-1-2.whl" = some "foo-1" ∧
    (firstHyphenName (basenameChars "/packages/foo-1-2.whl".data)).map
      (fun cs => canonStr (String.mk cs)) = some "foo" ∧
    ("foo-1" : String) ≠ "foo" := by
  decide

/-- Witness for C4's amended theorem at the counterexample filename. -/
theorem artifact_name_greedy_witness :
    ∃ k, 1 ≤ k ∧
      k < ((basenameChars "/packages/foo-1-2.whl".data).takeWhile isNameChar).length ∧
      hyphenDigitAt (basenameChars "/packages/foo-1-2.whl".data) k = true ∧
      "foo-1" = canonStr (String.mk ((basenameChars "/packages/foo-1-2.whl".data).take k)) ∧
      (∀ c ∈ (basenameChars "/packages/foo-1-2.whl".data).take k, isNameChar c = true) ∧
      (∀ j, k < j →
        j < ((basenameChars "/packages/foo-1-2.whl".data).takeWhile isNameChar).length →
        hyphenDigitAt (basenameChars "/packages/foo-1-2.whl".data) j = false) :=
  (artifact_name_greedy "/packages/foo-1-2.whl").1 "foo-1" (by decide)

/-! ## C7: the dummy simple-index page (`_serve_dummy_simple_page`, lines 491-545) -/

/-- `package_name.replace('-', '_')` (line 502). -/
def wheelNameOf (package_name : String) : String :=
  String.mk (package_name.data.map (fun c => if c = '-' then '_' else c))

/-- `Version.major`: the first release segment (0 when absent). -/
def majorOf (v : PyVersion) : Nat := v.release.headD 0

/-- `Version.minor`: the second release segment (0 when absent). -/
def minorOf (v : PyVersion) : Nat := (v.release.drop 1).headD 0

/-- The versions the page lists (lines 505-515): the resolved version, then
up to two decremented-minor versions, guarded so the minor never goes below
zero; an unparseable version contributes no extra entries (the `except:
pass`). -/
def versionsToServe (version : String) : List String :=
  version ::
    (match parseVersion version with
     | none => []
     | some v =>
       (if 0 < minorOf v then [natStr (majorOf v) ++ "." ++ natStr (minorOf v - 1) ++ ".0"]
        else []) ++
       (if 1 < minorOf v then [natStr (majorOf v) ++ "." ++ natStr (minorOf v - 2) ++ ".0"]
        else []))

/-- `{wheel_name}-{ver}-py3-none-any.whl` (line 519). -/
def wheelFname (package_name ver : String) : String :=
  wheelNameOf package_name ++ "-" ++ ver ++ "-py3-none-any.whl"

/-- One anchor line of the page body (lines 520-522). -/
def dummyLink (package_name ver : String) : String :=
  "    <a href=\"/packages/" ++ wheelFname package_name ver ++
    "\" data-requires-python=\"&gt;=3.8\">" ++ wheelFname package_name ver ++ "</a><br/>"

/-- The anchor lines `_serve_dummy_simple_page` renders, with the upstream
fetch outcome passed explicitly (lines 493-522). -/
def simplePageLinks (package_name : String) (info : Option (List String)) : List String :=
  let version_spec := dictGetD DUMMY_PACKAGES package_name "99.0.0"
  let version :=
    if version_spec = "auto" then find_compatible_version_pure info "" else version_spec
  (versionsToServe version).map (dummyLink package_name)

theorem takeWhile_append_all {α : Type} {p : α → Bool} {xs ys : List α}
    (h : ∀ x ∈ xs, p x = true) : (xs ++ ys).takeWhile p = xs ++ ys.takeWhile p := by
  induction xs with
  | nil => simp
  | cons a t ih =>
    rw [List.cons_append, List.takeWhile_cons, if_pos (h a (by simp)), List.cons_append,
      ih (fun x hx => h x (by simp [hx]))]

theorem dropWhile_append_all {α : Type} {p : α → Bool} {xs ys : List α}
    (h : ∀ x ∈ xs, p x = true) : (xs ++ ys).dropWhile p = ys.dropWhile p := by
  induction xs with
  | nil => simp
  | cons a t ih =>
    rw [List.cons_append, List.dropWhile_cons, if_pos (h a (by simp)),
      ih (fun x hx => h x (by simp [hx]))]

theorem takeWhile_cons_false {α : Type} {p : α → Bool} {y : α} {t : List α}
    (h : p y = false) : (y :: t).takeWhile p = [] := by
  rw [List.takeWhile_cons, if_neg (by simp [h])]

theorem dropWhile_cons_false {α : Type} {p : α → Bool} {y : α} {t : List α}
    (h : p y = false) : (y :: t).dropWhile p = y :: t := by
  rw [List.dropWhile_cons, if_neg (by simp [h])]

theorem splitOnChar_noSep {sep : Char} {cs : List Char} (h : ∀ c ∈ cs, c ≠ sep) :
    splitOnChar sep cs = [cs] := by
  induction cs with
  | nil => rfl
  | cons a t ih =>
    simp only [splitOnChar, if_neg (h a (by simp))]
    rw [ih (fun c hc => h c (by simp [hc]))]

theorem splitOnChar_append_sep {sep : Char} {A R : List Char} (hA : ∀ c ∈ A, c ≠ sep) :
    splitOnChar sep (A ++ sep :: R) = A :: splitOnChar sep R := by
  induction A with
  | nil => simp [splitOnChar]
  | cons a t ih =>
    simp only [List.cons_append, splitOnChar, if_neg (hA a (by simp)), List.append_eq]
    rw [ih (fun c hc => hA c (by simp [hc]))]

theorem joinDots_append_last (init : List (List Char)) (lastc s : List Char) :
    joinDots (init ++ [lastc]) ++ s = joinDots (init ++ [lastc ++ s]) := by
  induction init with
  | nil => simp [joinDots]
  | cons a t ih =>
    obtain ⟨h0, t0, heq⟩ : ∃ h0 t0, t ++ [lastc] = h0 :: t0 := by
      cases hv : t ++ [lastc] with
      | nil => exact absurd hv (by simp)
      | cons x y => exact ⟨x, y, rfl⟩
    obtain ⟨h1, t1, heq1⟩ : ∃ h1 t1, t ++ [lastc ++ s] = h1 :: t1 := by
      cases hv : t ++ [lastc ++ s] with
      | nil => exact absurd hv (by simp)
      | cons x y => exact ⟨x, y, rfl⟩
    rw [List.cons_append, heq, joinDots, ← heq, List.cons_append, heq1, joinDots, ← heq1,
      List.append_assoc, List.cons_append]
    rw [ih]

theorem splitOnChar_joinDots {chunks : List (List Char)} (hne : chunks ≠ [])
    (h : ∀ ch ∈ chunks, ∀ c ∈ ch, c ≠ '.') :
    splitOnChar '.' (joinDots chunks) = chunks := by
  induction chunks with
  | nil => exact absurd rfl hne
  | cons x t ih =>
    cases t with
    | nil =>
      rw [joinDots]
      exact splitOnChar_noSep (h x (by simp))
    | cons y rest =>
      rw [joinDots, splitOnChar_append_sep (h x (by simp))]
      rw [ih (by simp) (fun ch hch c hc => h ch (by simp [hch]) c hc)]

theorem isDigit_isAlpha_false {c : Char} (h : c.isDigit = true) : c.isAlpha = false := by
  unfold Char.isDigit at h
  unfold Char.isAlpha Char.isUpper Char.isLower
  rcases c with ⟨⟨⟨v, hv⟩⟩⟩
  simp_all [UInt32.le_def, Fin.le_def]
  omega

theorem isDigit_ne_dot {c : Char} (h : c.isDigit = true) : c ≠ '.' := by
  intro hc
  rw [hc] at h
  exact absurd h (by decide)

theorem mapM_isSome_of_all {α β : Type} (f : α → Option β) (l : List α)
    (h : ∀ x ∈ l, (f x).isSome = true) : (l.mapM f).isSome = true := by
  induction l with
  | nil => rfl
  | cons a t ih =>
    obtain ⟨b, hb⟩ := Option.isSome_iff_exists.mp (h a (by simp))
    obtain ⟨bs, hbs⟩ :=
      Option.isSome_iff_exists.mp (ih (fun x hx => h x (by simp [hx])))
    rw [List.mapM_cons, hb, hbs]
    rfl

theorem parseNatChunk_natToChars_isSome (n : Nat) :
    (parseNatChunk (natToChars n)).isSome = true := by
  unfold parseNatChunk
  rw [if_pos ⟨natToChars_ne_nil n, List.all_eq_true.mpr (natToChars_all_digit n)⟩]
  rfl

theorem phaseChars_all_alpha (ph : PrePhase) : ∀ c ∈ phaseChars ph, c.isAlpha = true := by
  cases ph <;> decide

theorem phaseChars_ne_nil (ph : PrePhase) : phaseChars ph ≠ [] := by
  cases ph <;> decide

theorem phaseChars_head_not_digit (ph : PrePhase) :
    ∀ h0 t0, phaseChars ph = h0 :: t0 → h0.isDigit = false := by
  cases ph <;> intro h0 t0 heq <;> cases heq <;> decide

/-- The pre-release suffix `str(Version)` appends to the last dot chunk. -/
def preSuffix : Option (PrePhase × Nat) → List Char
  | none => []
  | some (ph, k) => phaseChars ph ++ natToChars k

/-- The last dot chunk built by `str(Version)` — trailing digits plus the
optional pre-release suffix — parses back. -/
theorem parseLastChunk_isSome (m : Nat) (pre : Option (PrePhase × Nat)) :
    (parseLastChunk (natToChars m ++ preSuffix pre)).isSome = true := by
  cases pre with
  | none =>
    show (parseLastChunk (natToChars m ++ [])).isSome = true
    rw [List.append_nil]
    unfold parseLastChunk
    rw [List.span_eq_take_drop]
    have htw : (natToChars m).takeWhile Char.isDigit = natToChars m := by
      have := @takeWhile_append_all Char Char.isDigit (natToChars m) []
        (natToChars_all_digit m)
      simpa using this
    have hdw : (natToChars m).dropWhile Char.isDigit = [] := by
      have := @dropWhile_append_all Char Char.isDigit (natToChars m) []
        (natToChars_all_digit m)
      simpa using this
    simp only [htw, hdw]
    rw [if_neg (by simpa using natToChars_ne_nil m)]
    simp
  | some pk =>
    obtain ⟨ph, k⟩ := pk
    show (parseLastChunk (natToChars m ++ (phaseChars ph ++ natToChars k))).isSome = true
    obtain ⟨h0, t0, hph⟩ : ∃ h0 t0, phaseChars ph = h0 :: t0 := by
      cases hv : phaseChars ph with
      | nil => exact absurd hv (phaseChars_ne_nil ph)
      | cons x y => exact ⟨x, y, rfl⟩
    obtain ⟨d0, e0, hnk⟩ : ∃ d0 e0, natToChars k = d0 :: e0 := by
      cases hv : natToChars k with
      | nil => exact absurd hv (natToChars_ne_nil k)
      | cons x y => exact ⟨x, y, rfl⟩
    have hspan1 : (natToChars m ++ (phaseChars ph ++ natToChars k)).span Char.isDigit =
        (natToChars m, phaseChars ph ++ natToChars k) := by
      rw [List.span_eq_take_drop]
      rw [takeWhile_append_all (natToChars_all_digit m),
        dropWhile_append_all (natToChars_all_digit m)]
      rw [hph, List.cons_append, takeWhile_cons_false (phaseChars_head_not_digit ph h0 t0 hph),
        dropWhile_cons_false (phaseChars_head_not_digit ph h0 t0 hph), ← List.cons_append, ← hph]
      simp
    have hd : d0.isDigit = true := natToChars_all_digit k d0 (by simp [hnk])
    have hspan2 : (phaseChars ph ++ natToChars k).span Char.isAlpha =
        (phaseChars ph, natToChars k) := by
      rw [List.span_eq_take_drop]
      rw [takeWhile_append_all (phaseChars_all_alpha ph),
        dropWhile_append_all (phaseChars_all_alpha ph)]
      rw [hnk, takeWhile_cons_false (isDigit_isAlpha_false hd),
        dropWhile_cons_false (isDigit_isAlpha_false hd), ← hnk]
      simp
    unfold parseLastChunk
    rw [hspan1]
    dsimp only
    rw [if_neg (by simpa using natToChars_ne_nil m)]
    rw [if_neg (by simp [hph])]
    rw [hspan2]
    dsimp only
    have hphase : parsePhase (phaseChars ph) = some ph := by cases ph <;> rfl
    rw [hphase]
    obtain ⟨nk, hnk2⟩ := Option.isSome_iff_exists.mp (parseNatChunk_natToChars_isSome k)
    rw [hnk2]
    rfl

theorem isAlpha_ne_dot {c : Char} (h : c.isAlpha = true) : c ≠ '.' := by
  intro hc
  rw [hc] at h
  exact absurd h (by decide)

theorem verChars_eq (v : PyVersion) :
    verChars v = joinDots (v.release.map natToChars) ++ preSuffix v.pre := by
  obtain ⟨rel, pre⟩ := v
  cases pre with
  | none => rfl
  | some pk =>
    obtain ⟨ph, k⟩ := pk
    rfl

theorem preSuffix_no_dot (pre : Option (PrePhase × Nat)) : ∀ c ∈ preSuffix pre, c ≠ '.' := by
  cases pre with
  | none => simp [preSuffix]
  | some pk =>
    obtain ⟨ph, k⟩ := pk
    intro c hc
    simp only [preSuffix] at hc
    rcases List.mem_append.mp hc with h | h
    · exact isAlpha_ne_dot (phaseChars_all_alpha ph c h)
    · exact isDigit_ne_dot (natToChars_all_digit k c h)

/-- `str(Version)` of a version with a nonempty release parses back
(`Version(str(v))` succeeds) — the modelled normalization round-trip. -/
theorem parseVersion_verToString_isSome (v : PyVersion) (hrel : v.release ≠ []) :
    (parseVersion (verToString v)).isSome = true := by
  obtain ⟨ms, m, hms⟩ := (List.eq_nil_or_concat' v.release).resolve_left hrel
  have h1 : verChars v = joinDots (ms.map natToChars ++ [natToChars m ++ preSuffix v.pre]) := by
    rw [verChars_eq, hms, List.map_append, List.map_singleton, joinDots_append_last]
  have hchunks : ∀ ch ∈ ms.map natToChars ++ [natToChars m ++ preSuffix v.pre],
      ∀ c ∈ ch, c ≠ '.' := by
    intro ch hch c hc
    rcases List.mem_append.mp hch with h | h
    · obtain ⟨n, -, rfl⟩ := List.mem_map.mp h
      exact isDigit_ne_dot (natToChars_all_digit n c hc)
    · rcases List.mem_singleton.mp h with rfl
      rcases List.mem_append.mp hc with h2 | h2
      · exact isDigit_ne_dot (natToChars_all_digit m c h2)
      · exact preSuffix_no_dot v.pre c h2
  have hsplit : splitOnChar '.' (verChars v) =
      ms.map natToChars ++ [natToChars m ++ preSuffix v.pre] := by
    rw [h1]
    exact splitOnChar_joinDots (by simp) hchunks
  unfold parseVersion parseVersionChars
  dsimp only
  rw [show (verToString v).data = verChars v from rfl, hsplit, List.getLast?_concat,
    List.dropLast_concat]
  obtain ⟨ns, hns⟩ := Option.isSome_iff_exists.mp
    (mapM_isSome_of_all parseNatChunk (ms.map natToChars)
      (fun x hx => by
        obtain ⟨n, -, rfl⟩ := List.mem_map.mp hx
        exact parseNatChunk_natToChars_isSome n))
  rw [hns]
  obtain ⟨lc, hlc⟩ := Option.isSome_iff_exists.mp (parseLastChunk_isSome m v.pre)
  rcases lc with ⟨n2, pre2⟩
  dsimp only
  rw [hlc]
  rfl

/-- Every result of the resolver parses as a version (it is either
`'99.0.0'` or the normalization of a parsed upstream version). -/
theorem fcv_result_parseable (info : Option (List String)) (s : String) :
    (parseVersion (find_compatible_version_pure info s)).isSome = true := by
  unfold find_compatible_version_pure fcvCore
  split
  · decide
  · rename_i versions
    split
    · decide
    · dsimp only
      split
      · decide
      · split
        · decide
        · rename_i hpar v0 rest hsort
          split
          · split
            · rename_i x hfind
              apply parseVersion_verToString_isSome
              apply mem_parsedOf_release_ne_nil versions
              have hx : x ∈ sortDesc (versions.filterMap parseVersion) := by
                rw [hsort]
                exact List.mem_of_find?_eq_some hfind
              exact mem_sortDesc.mp hx
            · apply parseVersion_verToString_isSome
              apply mem_parsedOf_release_ne_nil versions
              have hx : v0 ∈ sortDesc (versions.filterMap parseVersion) := by
                rw [hsort]
                exact List.mem_cons_self v0 rest
              exact mem_sortDesc.mp hx
          · split
            · decide
            · rename_i sp hsp
              split
              · rename_i x hfind
                apply parseVersion_verToString_isSome
                apply mem_parsedOf_release_ne_nil versions
                have hx : x ∈ sortDesc (versions.filterMap parseVersion) := by
                  rw [hsort]
                  exact List.mem_of_find?_eq_some hfind
                exact mem_sortDesc.mp hx
              · split
                · rename_i x hfind
                  apply parseVersion_verToString_isSome
                  apply mem_parsedOf_release_ne_nil versions
                  have hx : x ∈ sortDesc (versions.filterMap parseVersion) := by
                    rw [hsort]
                    exact List.mem_of_find?_eq_some hfind
                  exact mem_sortDesc.mp hx
                · apply parseVersion_verToString_isSome
                  apply mem_parsedOf_release_ne_nil versions
                  have hx : v0 ∈ sortDesc (versions.filterMap parseVersion) := by
                    rw [hsort]
                    exact List.mem_cons_self v0 rest
                  exact mem_sortDesc.mp hx

/-- The decremented-minor filenames `M.(m-k).0` always parse as versions. -/
theorem parse_dotted3_isSome (a b : Nat) :
    (parseVersion (natStr a ++ "." ++ natStr b ++ ".0")).isSome = true := by
  have h : natStr a ++ "." ++ natStr b ++ ".0" = verToString ⟨[a, b, 0], none⟩ := by
    apply String.ext
    simp only [String.data_append]
    show natToChars a ++ ['.'] ++ natToChars b ++ ['.', '0'] =
      verChars ⟨[a, b, 0], none⟩
    rw [verChars_eq]
    show _ = joinDots [natToChars a, natToChars b, natToChars 0] ++ []
    rw [joinDots, joinDots, joinDots, List.append_nil]
    show _ = natToChars a ++ '.' :: (natToChars b ++ '.' :: ['0'])
    simp
  rw [h]
  exact parseVersion_verToString_isSome _ (by simp)

/-- C7: for a substituted package whose policy directive is `auto` (every
entry of `DUMMY_PACKAGES` is), the simple page lists between one and three
anchor links, each pointing at `/packages/<filename>`; the listed versions
are the resolved version followed by up to two preceding minor versions
obtained by decrementing the minor component while it stays nonnegative, and
every listed filename's embedded version parses as a valid version. -/
theorem simple_page_links_valid (package_name version : String) (info : Option (List String))
    (hauto : dictGetD DUMMY_PACKAGES package_name "99.0.0" = "auto")
    (hv : version = find_compatible_version_pure info "") :
    1 ≤ (versionsToServe version).length ∧
    (versionsToServe version).length ≤ 3 ∧
    simplePageLinks package_name info = (versionsToServe version).map (dummyLink package_name) ∧
    (versionsToServe version).head? = some version ∧
    (∀ ver ∈ versionsToServe version, (parseVersion ver).isSome = true) ∧
    (∀ ver ∈ (versionsToServe version).drop 1,
      ∃ mv, parseVersion version = some mv ∧
        ((ver = natStr (majorOf mv) ++ "." ++ natStr (minorOf mv - 1) ++ ".0" ∧
            1 ≤ minorOf mv) ∨
         (ver = natStr (majorOf mv) ++ "." ++ natStr (minorOf mv - 2) ++ ".0" ∧
            2 ≤ minorOf mv))) := by
  refine ⟨?_, ?_, ?_, ?_, ?_, ?_⟩
  · simp only [versionsToServe, List.length_cons]
    omega
  · simp only [versionsToServe, List.length_cons]
    cases parseVersion version with
    | none => simp
    | some mv =>
      dsimp only
      split_ifs <;> simp
  · unfold simplePageLinks
    dsimp only
    rw [hauto, if_pos rfl, ← hv]
  · rfl
  · intro ver hver
    rcases List.mem_cons.mp hver with rfl | hver
    · rw [hv]
      exact fcv_result_parseable info ""
    · cases hm : parseVersion version with
      | none =>
        rw [hm] at hver
        simp at hver
      | some mv =>
        rw [hm] at hver
        rcases List.mem_append.mp hver with h | h
        · by_cases h0 : 0 < minorOf mv
          · rw [if_pos h0] at h
            rcases List.mem_singleton.mp h with rfl
            exact parse_dotted3_isSome _ _
          · rw [if_neg h0] at h
            simp at h
        · by_cases h1 : 1 < minorOf mv
          · rw [if_pos h1] at h
            rcases List.mem_singleton.mp h with rfl
            exact parse_dotted3_isSome _ _
          · rw [if_neg h1] at h
            simp at h
  · intro ver hver
    simp only [versionsToServe, List.drop_succ_cons, List.drop_zero] at hver
    cases hm : parseVersion version with
    | none =>
      rw [hm] at hver
      simp at hver
    | some mv =>
      rw [hm] at hver
      refine ⟨mv, rfl, ?_⟩
      rcases List.mem_append.mp hver with h | h
      · by_cases h0 : 0 < minorOf mv
        · rw [if_pos h0] at h
          rcases List.mem_singleton.mp h with rfl
          exact Or.inl ⟨rfl, h0⟩
        · rw [if_neg h0] at h
          simp at h
      · by_cases h1 : 1 < minorOf mv
        · rw [if_pos h1] at h
          rcases List.mem_singleton.mp h with rfl
          exact Or.inr ⟨rfl, h1⟩
        · rw [if_neg h1] at h
          simp at h

/-- Witness for C7 at package `torch` with a failed upstream fetch: the
resolved version is the fallback `99.0.0`, minor is `0`, so exactly one
link is served. -/
theorem simple_page_links_valid_witness :
    dictGetD DUMMY_PACKAGES "torch" "99.0.0" = "auto" ∧
    ("99.0.0" : String) = find_compatible_version_pure none "" ∧
    (1 ≤ (versionsToServe "99.0.0").length ∧
      (versionsToServe "99.0.0").length ≤ 3 ∧
      simplePageLinks "torch" none = (versionsToServe "99.0.0").map (dummyLink "torch") ∧
      (versionsToServe "99.0.0").head? = some "99.0.0" ∧
      (∀ ver ∈ versionsToServe "99.0.0", (parseVersion ver).isSome = true) ∧
      (∀ ver ∈ (versionsToServe "99.0.0").drop 1,
        ∃ mv, parseVersion "99.0.0" = some mv ∧
          ((ver = natStr (majorOf mv) ++ "." ++ natStr (minorOf mv - 1) ++ ".0" ∧
              1 ≤ minorOf mv) ∨
           (ver = natStr (majorOf mv) ++ "." ++ natStr (minorOf mv - 2) ++ ".0" ∧
              2 ≤ minorOf mv)))) :=
  ⟨by decide, by decide,
    simple_page_links_valid "torch" "99.0.0" none (by decide) (by decide)⟩

/-! ## C10: the served artifact's version (`_serve_dummy_package`, lines 547-567)

The version is taken from `re.search(r'-(\d+\.\d+\.\d+(?:\.\w+)?)-', filename)`
— the leftmost occurrence of a hyphen-delimited `digits.digits.digits` with
an optional `.word` suffix.  For this pattern the greedy quantifiers are
deterministic (digit, word and delimiter characters are disjoint), so the
regex is embedded as a straight-line scanner. -/

/-- The regex class `\w`. -/
def isWordChar (c : Char) : Bool := c.isAlphanum || c = '_'

/-- Consume a leading `'-'`. -/
def expectDash : List Char → Option (List Char)
  | '-' :: rest => some rest
  | _ => none

/-- Consume a leading `'.'`. -/
def expectDot : List Char → Option (List Char)
  | '.' :: rest => some rest
  | _ => none

/-- `\d+` (greedy, hence maximal): the digit run and the remainder. -/
def takeDigits1 (cs : List Char) : Option (List Char × List Char) :=
  let p := cs.span Char.isDigit
  if p.1 = [] then none else some p

/-- `\w+` (greedy, hence maximal). -/
def takeWord1 (cs : List Char) : Option (List Char × List Char) :=
  let p := cs.span isWordChar
  if p.1 = [] then none else some p

/-- Does the list start with `'-'`? -/
def startsDash : List Char → Bool
  | '-' :: _ => true
  | _ => false

/-- Match `-(\d+\.\d+\.\d+(?:\.\w+)?)-` anchored at the start, returning the
captured group.  The two closing alternatives cannot both apply (the char
after `\d+` is unique), so trying `startsDash` before the optional suffix is
equivalent to the regex's greedy order. -/
def matchVersionAt (cs : List Char) : Option (List Char) :=
  match expectDash cs with
  | none => none
  | some r0 =>
    match takeDigits1 r0 with
    | none => none
    | some (d1, r1) =>
      match expectDot r1 with
      | none => none
      | some r2 =>
        match takeDigits1 r2 with
        | none => none
        | some (d2, r3) =>
          match expectDot r3 with
          | none => none
          | some r4 =>
            match takeDigits1 r4 with
            | none => none
            | some (d3, r5) =>
              if startsDash r5 then some (d1 ++ '.' :: d2 ++ '.' :: d3)
              else
                match expectDot r5 with
                | none => none
                | some r6 =>
                  match takeWord1 r6 with
                  | none => none
                  | some (w, r7) =>
                    if startsDash r7 then some (d1 ++ '.' :: d2 ++ '.' :: d3 ++ '.' :: w)
                    else none

/-- `re.search`: try every start position left to right. -/
def searchVersion : List Char → Option (List Char)
  | [] => none
  | c :: rest =>
    match matchVersionAt (c :: rest) with
    | some v => some v
    | none => searchVersion rest

/-- `re.search(r'-(\d+\.\d+\.\d+(?:\.\w+)?)-', filename)`'s group 1. -/
def extractFnameVersion (filename : String) : Option String :=
  (searchVersion filename.data).map String.mk

/-- The version `_serve_dummy_package` builds the wheel with (lines
549-562): the filename-embedded version when the pattern matches, else the
policy directive, auto-resolved through the resolver when it is `auto`. -/
def servedWheelVersion (path package_name : String) (info : Option (List String)) : String :=
  match extractFnameVersion (String.mk (basenameChars path.data)) with
  | some v => v
  | none =>
    let version_spec := dictGetD DUMMY_PACKAGES package_name "99.0.0"
    if version_spec = "auto" then find_compatible_version_pure info "" else version_spec

/-- The declarative shape of a hyphen-delimited three-component version with
an optional dotted word suffix — the claim's description of the pattern. -/
def VersionChunkShape (d1 d2 d3 suf : List Char) : Prop :=
  d1 ≠ [] ∧ (∀ c ∈ d1, c.isDigit = true) ∧
  d2 ≠ [] ∧ (∀ c ∈ d2, c.isDigit = true) ∧
  d3 ≠ [] ∧ (∀ c ∈ d3, c.isDigit = true) ∧
  (suf = [] ∨ ∃ w, suf = '.' :: w ∧ w ≠ [] ∧ ∀ c ∈ w, isWordChar c = true)

/-- `cs` begins with the full pattern, capturing `ver`. -/
def VersionPatternAt (cs ver : List Char) : Prop :=
  ∃ d1 d2 d3 suf tail, VersionChunkShape d1 d2 d3 suf ∧
    cs = '-' :: (d1 ++ '.' :: d2 ++ '.' :: d3 ++ suf ++ '-' :: tail) ∧
    ver = d1 ++ '.' :: d2 ++ '.' :: d3 ++ suf

/-- Some suffix of `f` begins with the pattern. -/
def HasVersionPattern (f : List Char) : Prop := ∃ i ver, VersionPatternAt (f.drop i) ver

theorem expectDash_eq_some {cs r : List Char} : expectDash cs = some r ↔ cs = '-' :: r := by
  constructor
  · intro h
    unfold expectDash at h
    split at h
    · rename_i rest
      cases h
      rfl
    · exact absurd h (by simp)
  · rintro rfl
    rfl

theorem expectDot_eq_some {cs r : List Char} : expectDot cs = some r ↔ cs = '.' :: r := by
  constructor
  · intro h
    unfold expectDot at h
    split at h
    · rename_i rest
      cases h
      rfl
    · exact absurd h (by simp)
  · rintro rfl
    rfl

theorem startsDash_iff {cs : List Char} : startsDash cs = true ↔ ∃ t, cs = '-' :: t := by
  constructor
  · intro h
    unfold startsDash at h
    split at h
    · rename_i t
      exact ⟨t, rfl⟩
    · exact absurd h (by simp)
  · rintro ⟨t, rfl⟩
    rfl

theorem takeDigits1_eq_some {cs d r : List Char} (h : takeDigits1 cs = some (d, r)) :
    d ≠ [] ∧ (∀ c ∈ d, c.isDigit = true) ∧ cs = d ++ r := by
  unfold takeDigits1 at h
  rw [List.span_eq_take_drop] at h
  dsimp only at h
  split at h
  · exact absurd h (by simp)
  · rename_i hne
    rcases h with ⟨⟩
    exact ⟨hne, fun c hc => List.mem_takeWhile_imp hc,
      (List.takeWhile_append_dropWhile _ _).symm⟩

/-- A remainder that does not begin with the scanned class. -/
def HeadNot (p : Char → Bool) (r : List Char) : Prop :=
  r = [] ∨ ∃ c t, r = c :: t ∧ p c = false

theorem span_append_of_headNot {p : Char → Bool} {d r : List Char}
    (hall : ∀ c ∈ d, p c = true) (hr : HeadNot p r) : (d ++ r).span p = (d, r) := by
  rw [List.span_eq_take_drop, takeWhile_append_all hall, dropWhile_append_all hall]
  rcases hr with rfl | ⟨c, t, rfl, hc⟩
  · simp
  · rw [takeWhile_cons_false hc, dropWhile_cons_false hc]
    simp

theorem takeDigits1_append {d r : List Char} (hd : d ≠ [])
    (hdig : ∀ c ∈ d, c.isDigit = true) (hr : HeadNot Char.isDigit r) :
    takeDigits1 (d ++ r) = some (d, r) := by
  unfold takeDigits1
  rw [span_append_of_headNot hdig hr]
  dsimp only
  rw [if_neg hd]

theorem takeWord1_append {w r : List Char} (hw : w ≠ [])
    (hword : ∀ c ∈ w, isWordChar c = true) (hr : HeadNot isWordChar r) :
    takeWord1 (w ++ r) = some (w, r) := by
  unfold takeWord1
  rw [span_append_of_headNot hword hr]
  dsimp only
  rw [if_neg hw]

theorem matchVersionAt_some_pattern {cs ver : List Char}
    (h : matchVersionAt cs = some ver) : VersionPatternAt cs ver := by
  unfold matchVersionAt at h
  cases h0 : expectDash cs with
  | none => rw [h0] at h; exact absurd h (by simp)
  | some r0 =>
    rw [h0] at h
    dsimp only at h
    obtain rfl := expectDash_eq_some.mp h0
    cases h1 : takeDigits1 r0 with
    | none => rw [h1] at h; exact absurd h (by simp)
    | some p1 =>
      obtain ⟨d1, r1⟩ := p1
      rw [h1] at h
      dsimp only at h
      obtain ⟨hd1ne, hd1dig, hr0⟩ := takeDigits1_eq_some h1
      cases h2 : expectDot r1 with
      | none => rw [h2] at h; exact absurd h (by simp)
      | some r2 =>
        rw [h2] at h
        dsimp only at h
        have hr1 := expectDot_eq_some.mp h2
        cases h3 : takeDigits1 r2 with
        | none => rw [h3] at h; exact absurd h (by simp)
        | some p2 =>
          obtain ⟨d2, r3⟩ := p2
          rw [h3] at h
          dsimp only at h
          obtain ⟨hd2ne, hd2dig, hr2⟩ := takeDigits1_eq_some h3
          cases h4 : expectDot r3 with
          | none => rw [h4] at h; exact absurd h (by simp)
          | some r4 =>
            rw [h4] at h
            dsimp only at h
            have hr3 := expectDot_eq_some.mp h4
            cases h5 : takeDigits1 r4 with
            | none => rw [h5] at h; exact absurd h (by simp)
            | some p3 =>
              obtain ⟨d3, r5⟩ := p3
              rw [h5] at h
              dsimp only at h
              obtain ⟨hd3ne, hd3dig, hr4⟩ := takeDigits1_eq_some h5
              by_cases hs : startsDash r5 = true
              · rw [if_pos hs] at h
                obtain ⟨t5, hr5⟩ := startsDash_iff.mp hs
                cases h
                refine ⟨d1, d2, d3, [], t5,
                  ⟨hd1ne, hd1dig, hd2ne, hd2dig, hd3ne, hd3dig, Or.inl rfl⟩, ?_, ?_⟩
                · rw [hr0, hr1, hr2, hr3, hr4, hr5]
                  simp [List.append_assoc]
                · simp
              · rw [if_neg hs] at h
                cases h6 : expectDot r5 with
                | none => rw [h6] at h; exact absurd h (by simp)
                | some r6 =>
                  rw [h6] at h
                  dsimp only at h
                  have hr5 := expectDot_eq_some.mp h6
                  cases h7 : takeWord1 r6 with
                  | none => rw [h7] at h; exact absurd h (by simp)
                  | some p4 =>
                    obtain ⟨w, r7⟩ := p4
                    rw [h7] at h
                    dsimp only at h
                    have hw : w ≠ [] ∧ (∀ c ∈ w, isWordChar c = true) ∧ r6 = w ++ r7 := by
                      unfold takeWord1 at h7
                      rw [List.span_eq_take_drop] at h7
                      dsimp only at h7
                      split at h7
                      · exact absurd h7 (by simp)
                      · rename_i hne
                        rcases h7 with ⟨⟩
                        exact ⟨hne, fun c hc => List.mem_takeWhile_imp hc,
                          (List.takeWhile_append_dropWhile _ _).symm⟩
                    obtain ⟨hwne, hwword, hr6⟩ := hw
                    by_cases hs7 : startsDash r7 = true
                    · rw [if_pos hs7] at h
                      obtain ⟨t7, hr7⟩ := startsDash_iff.mp hs7
                      cases h
                      refine ⟨d1, d2, d3, '.' :: w, t7,
                        ⟨hd1ne, hd1dig, hd2ne, hd2dig, hd3ne, hd3dig,
                          Or.inr ⟨w, rfl, hwne, hwword⟩⟩, ?_, ?_⟩
                      · rw [hr0, hr1, hr2, hr3, hr4, hr5, hr6, hr7]
                        simp [List.append_assoc]
                      · simp [List.append_assoc]
                    · rw [if_neg hs7] at h
                      exact absurd h (by simp)

theorem matchVersionAt_pattern_some {cs ver : List Char}
    (h : VersionPatternAt cs ver) : matchVersionAt cs = some ver := by
  obtain ⟨d1, d2, d3, suf, tail, ⟨h1ne, h1dig, h2ne, h2dig, h3ne, h3dig, hsuf⟩, hcs, hver⟩ := h
  subst hcs
  subst hver
  rcases hsuf with rfl | ⟨w, rfl, hwne, hwword⟩
  · simp only [List.append_nil]
    unfold matchVersionAt
    rw [show expectDash ('-' :: (d1 ++ '.' :: d2 ++ '.' :: d3 ++ '-' :: tail)) =
        some (d1 ++ '.' :: d2 ++ '.' :: d3 ++ '-' :: tail) from rfl]
    dsimp only
    rw [show d1 ++ '.' :: d2 ++ '.' :: d3 ++ '-' :: tail =
        d1 ++ '.' :: (d2 ++ '.' :: (d3 ++ '-' :: tail)) by simp [List.append_assoc]]
    rw [takeDigits1_append h1ne h1dig (Or.inr ⟨'.', _, rfl, by decide⟩)]
    dsimp only
    rw [show expectDot ('.' :: (d2 ++ '.' :: (d3 ++ '-' :: tail))) =
        some (d2 ++ '.' :: (d3 ++ '-' :: tail)) from rfl]
    dsimp only
    rw [takeDigits1_append h2ne h2dig (Or.inr ⟨'.', _, rfl, by decide⟩)]
    dsimp only
    rw [show expectDot ('.' :: (d3 ++ '-' :: tail)) = some (d3 ++ '-' :: tail) from rfl]
    dsimp only
    rw [takeDigits1_append h3ne h3dig (Or.inr ⟨'-', _, rfl, by decide⟩)]
    dsimp only
    rw [if_pos (show startsDash ('-' :: tail) = true from rfl)]
  · unfold matchVersionAt
    rw [show expectDash ('-' :: (d1 ++ '.' :: d2 ++ '.' :: d3 ++ ('.' :: w) ++ '-' :: tail)) =
        some (d1 ++ '.' :: d2 ++ '.' :: d3 ++ ('.' :: w) ++ '-' :: tail) from rfl]
    dsimp only
    rw [show d1 ++ '.' :: d2 ++ '.' :: d3 ++ ('.' :: w) ++ '-' :: tail =
        d1 ++ '.' :: (d2 ++ '.' :: (d3 ++ '.' :: (w ++ '-' :: tail))) by simp [List.append_assoc]]
    rw [takeDigits1_append h1ne h1dig (Or.inr ⟨'.', _, rfl, by decide⟩)]
    dsimp only
    rw [show expectDot ('.' :: (d2 ++ '.' :: (d3 ++ '.' :: (w ++ '-' :: tail)))) =
        some (d2 ++ '.' :: (d3 ++ '.' :: (w ++ '-' :: tail))) from rfl]
    dsimp only
    rw [takeDigits1_append h2ne h2dig (Or.inr ⟨'.', _, rfl, by decide⟩)]
    dsimp only
    rw [show expectDot ('.' :: (d3 ++ '.' :: (w ++ '-' :: tail))) =
        some (d3 ++ '.' :: (w ++ '-' :: tail)) from rfl]
    dsimp only
    rw [takeDigits1_append h3ne h3dig (Or.inr ⟨'.', _, rfl, by decide⟩)]
    dsimp only
    rw [if_neg (show ¬startsDash ('.' :: (w ++ '-' :: tail)) = true from by simp [startsDash])]
    rw [show expectDot ('.' :: (w ++ '-' :: tail)) = some (w ++ '-' :: tail) from rfl]
    dsimp only
    rw [takeWord1_append hwne hwword (Or.inr ⟨'-', _, rfl, by decide⟩)]
    dsimp only
    rw [if_pos (show startsDash ('-' :: tail) = true from rfl)]

theorem searchVersion_isSome_iff {f : List Char} :
    (searchVersion f).isSome = true ↔ HasVersionPattern f := by
  constructor
  · intro h
    induction f with
    | nil => exact absurd h (by simp [searchVersion])
    | cons c rest ih =>
      unfold searchVersion at h
      cases hm : matchVersionAt (c :: rest) with
      | some v =>
        exact ⟨0, v, by simpa using matchVersionAt_some_pattern hm⟩
      | none =>
        rw [hm] at h
        obtain ⟨i, ver, hp⟩ := ih h
        exact ⟨i + 1, ver, by simpa [List.drop_succ_cons] using hp⟩
  · rintro ⟨i, ver, hp⟩
    induction f generalizing i with
    | nil =>
      obtain ⟨d1, d2, d3, suf, tail, -, hcs, -⟩ := hp
      simp at hcs
    | cons c rest ih =>
      cases i with
      | zero =>
        rw [List.drop_zero] at hp
        unfold searchVersion
        rw [matchVersionAt_pattern_some hp]
        rfl
      | succ i =>
        rw [List.drop_succ_cons] at hp
        have := ih i hp
        unfold searchVersion
        cases hm : matchVersionAt (c :: rest) with
        | some v => rfl
        | none => exact this

theorem isSome_map_mk {o : Option (List Char)} : (o.map String.mk).isSome = o.isSome := by
  cases o <;> rfl

/-- C10: the wheel `_serve_dummy_package` builds embeds the filename's
version exactly when the filename contains a hyphen-delimited
`major.minor.patch` (with optional dotted word suffix) pattern; for every
filename without such a pattern the policy directive — auto-resolved when it
is `auto` — is used instead, so the served wheel's internal version can
differ from the version string appearing in the requested filename. -/
theorem served_wheel_version_source (path package_name : String) (info : Option (List String)) :
    ((extractFnameVersion (String.mk (basenameChars path.data))).isSome = true ↔
      HasVersionPattern (basenameChars path.data)) ∧
    (∀ v, extractFnameVersion (String.mk (basenameChars path.data)) = some v →
      servedWheelVersion path package_name info = v) ∧
    (extractFnameVersion (String.mk (basenameChars path.data)) = none →
      servedWheelVersion path package_name info =
        (if dictGetD DUMMY_PACKAGES package_name "99.0.0" = "auto"
         then find_compatible_version_pure info ""
         else dictGetD DUMMY_PACKAGES package_name "99.0.0")) := by
  refine ⟨?_, ?_, ?_⟩
  · rw [show extractFnameVersion (String.mk (basenameChars path.data)) =
        (searchVersion (basenameChars path.data)).map String.mk from rfl, isSome_map_mk]
    exact searchVersion_isSome_iff
  · intro v hv
    unfold servedWheelVersion
    rw [hv]
  · intro hn
    unfold servedWheelVersion
    rw [hn]

/-- Witness for C10: `torch-2.0-py3-none-any.whl` has no three-component
pattern, so the wheel is built with the auto-resolved version (`99.0.0` on a
failed fetch) although the filename names `2.0`; a three-component filename
passes its own version through. -/
theorem served_wheel_version_source_witness :
    servedWheelVersion "/packages/torch-2.0-py3-none-any.whl" "torch" none = "99.0.0" ∧
    extractFnameVersion "torch-2.0-py3-none-any.whl" = none ∧
    servedWheelVersion "/packages/torch-2.1.3-py3-none-any.whl" "torch" none = "2.1.3" := by
  refine ⟨?_, by decide, ?_⟩
  · have h := (served_wheel_version_source "/packages/torch-2.0-py3-none-any.whl"
      "torch" none).2.2 (by decide)
    rw [h]
    decide
  · exact (served_wheel_version_source "/packages/torch-2.1.3-py3-none-any.whl"
      "torch" none).2.1 "2.1.3" (by decide)

/-! ## C2: wheel synthesis and the RECORD manifest
(`file_hash_record` lines 241-248, `create_dummy_wheel` lines 251-389)

`hashlib.sha256` is embedded as an executable SHA-256 (FIPS 180-4) over
byte lists, with 32-bit words as `Nat` reduced mod `2^32`;
`base64.urlsafe_b64encode(...).rstrip(b'=')` as URL-safe base64 with the
trailing padding stripped; `str.encode('utf-8')` as UTF-8 code-point
encoding. -/

/-- UTF-8 encoding of one code point. -/
def charUtf8 (c : Char) : List Nat :=
  let n := c.toNat
  if n < 128 then [n]
  else if n < 2048 then [192 + n / 64, 128 + n % 64]
  else if n < 65536 then [224 + n / 4096, 128 + n / 64 % 64, 128 + n % 64]
  else [240 + n / 262144, 128 + n / 4096 % 64, 128 + n / 64 % 64, 128 + n % 64]

/-- `s.encode('utf-8')` as a byte list. -/
def utf8Bytes (s : String) : List Nat := (s.data.map charUtf8).flatten

/-- Addition mod `2^32`. -/
def add32 (a b : Nat) : Nat := (a + b) % 4294967296

/-- Right rotation of a 32-bit word. -/
def rotr (n x : Nat) : Nat := x / 2 ^ n + x % 2 ^ n * 2 ^ (32 - n)

/-- Right shift. -/
def shr32 (n x : Nat) : Nat := x / 2 ^ n

def bigSigma0 (x : Nat) : Nat := rotr 2 x ^^^ rotr 13 x ^^^ rotr 22 x

def bigSigma1 (x : Nat) : Nat := rotr 6 x ^^^ rotr 11 x ^^^ rotr 25 x

def smallSigma0 (x : Nat) : Nat := rotr 7 x ^^^ rotr 18 x ^^^ shr32 3 x

def smallSigma1 (x : Nat) : Nat := rotr 17 x ^^^ rotr 19 x ^^^ shr32 10 x

def chFn (x y z : Nat) : Nat := (x &&& y) ^^^ ((x ^^^ 4294967295) &&& z)

def majFn (x y z : Nat) : Nat := (x &&& y) ^^^ (x &&& z) ^^^ (y &&& z)

/-- The SHA-256 round constants. -/
def K256 : List Nat :=
  [1116352408, 1899447441, 3049323471, 3921009573, 961987163, 1508970993, 2453635748,
   2870763221, 3624381080, 310598401, 607225278, 1426881987, 1925078388, 2162078206,
   2614888103, 3248222580, 3835390401, 4022224774, 264347078, 604807628, 770255983,
   1249150122, 1555081692, 1996064986, 2554220882, 2821834349, 2952996808, 3210313671,
   3336571891, 3584528711, 113926993, 338241895, 666307205, 773529912, 1294757372,
   1396182291, 1695183700, 1986661051, 2177026350, 2456956037, 2730485921, 2820302411,
   3259730800, 3345764771, 3516065817, 3600352804, 4094571909, 275423344, 430227734,
   506948616, 659060556, 883997877, 958139571, 1322822218, 1537002063, 1747873779,
   1955562222, 2024104815, 2227730452, 2361852424, 2428436474, 2756734187, 3204031479,
   3329325298]

/-- The SHA-256 initial hash value. -/
def H256 : List Nat :=
  [1779033703, 3144134277, 1013904242, 2773480762, 1359893119, 2600822924, 528734635,
   1541459225]

/-- Big-endian bytes of `n`, `k` bytes wide. -/
def natToBEBytes (k n : Nat) : List Nat := (List.range k).reverse.map (fun i => n / 256 ^ i % 256)

/-- The `i`-th big-endian 32-bit word of a 64-byte block. -/
def wordOf (block : List Nat) (i : Nat) : Nat :=
  block.getD (4 * i) 0 * 16777216 + block.getD (4 * i + 1) 0 * 65536 +
    block.getD (4 * i + 2) 0 * 256 + block.getD (4 * i + 3) 0

/-- Extend the message schedule by one word. -/
def scheduleStep (w : List Nat) : List Nat :=
  w ++ [add32 (add32 (smallSigma1 (w.getD (w.length - 2) 0)) (w.getD (w.length - 7) 0))
    (add32 (smallSigma0 (w.getD (w.length - 15) 0)) (w.getD (w.length - 16) 0))]

/-- The 64-word message schedule of a block. -/
def fullW (block : List Nat) : List Nat :=
  (List.range 48).foldl (fun w _ => scheduleStep w) ((List.range 16).map (wordOf block))

/-- One compression round on the eight working words. -/
def roundStep (st : List Nat) (kw : Nat × Nat) : List Nat :=
  match st with
  | [a, b, c, d, e, f, g, h] =>
    let t1 := add32 h (add32 (bigSigma1 e) (add32 (chFn e f g) (add32 kw.1 kw.2)))
    let t2 := add32 (bigSigma0 a) (majFn a b c)
    [add32 t1 t2, a, b, c, add32 d t1, e, f, g]
  | other => other

/-- Compress one 64-byte block into the hash state. -/
def processBlock (hs : List Nat) (block : List Nat) : List Nat :=
  let st := (K256.zip (fullW block)).foldl roundStep hs
  (hs.zip st).map (fun p => add32 p.1 p.2)

/-- SHA-256 padding: `0x80`, zeros to 56 mod 64, 8-byte big-endian bit length. -/
def sha256pad (msg : List Nat) : List Nat :=
  msg ++ 128 :: List.replicate ((119 - msg.length % 64) % 64) 0 ++
    natToBEBytes 8 (msg.length * 8)

/-- Split into 64-byte blocks (fuel-structural). -/
def chunks64 : Nat → List Nat → List (List Nat)
  | 0, _ => []
  | fuel + 1, l => if l = [] then [] else l.take 64 :: chunks64 fuel (l.drop 64)

/-- `hashlib.sha256(msg).digest()` as 32 bytes. -/
def sha256 (msg : List Nat) : List Nat :=
  let padded := sha256pad msg
  (((chunks64 (padded.length + 1) padded).foldl processBlock H256).map (natToBEBytes 4)).flatten

/-- The URL-safe base64 alphabet. -/
def B64URL : List Char :=
  "ABCDEFGHIJKLMNOPQRSTUVWXYZabcdefghijklmnopqrstuvwxyz0123456789-_".data

def b64char (n : Nat) : Char := B64URL.getD n 'A'

/-- Base64-encode with `=` padding (fuel-structural over 3-byte groups). -/
def b64encodeGo : Nat → List Nat → List Char
  | 0, _ => []
  | _ + 1, [] => []
  | _ + 1, [b1] => [b64char (b1 / 4), b64char (b1 % 4 * 16), '=', '=']
  | _ + 1, [b1, b2] => [b64char (b1 / 4), b64char (b1 % 4 * 16 + b2 / 16), b64char (b2 % 16 * 4), '=']
  | fuel + 1, b1 :: b2 :: b3 :: rest =>
    b64char (b1 / 4) :: b64char (b1 % 4 * 16 + b2 / 16) :: b64char (b2 % 16 * 4 + b3 / 64) ::
      b64char (b3 % 64) :: b64encodeGo fuel rest

/-- `base64.urlsafe_b64encode(bs).rstrip(b'=')` (line 247). -/
def b64urlNoPad (bs : List Nat) : String :=
  String.mk (((b64encodeGo (bs.length + 1) bs).reverse.dropWhile (· = '=')).reverse)

/-- `file_hash_record` (lines 241-248): the `sha256=<digest>` field and the
exact encoded byte length. -/
def file_hash_record (content : String) : String × Nat :=
  ("sha256=" ++ b64urlNoPad (sha256 (utf8Bytes content)), (utf8Bytes content).length)

-- FIPS 180-4 test vector, and the padding/encoding pipeline end to end.
example : sha256 (utf8Bytes "abc") =
    [186, 120, 22, 191, 143, 1, 207, 234, 65, 65, 64, 222, 93, 174, 34, 35, 176, 3, 97,
     163, 150, 23, 122, 156, 180, 16, 255, 97, 242, 0, 21, 173] := by decide

example : (file_hash_record "abc").1 =
    "sha256=ungWv48Bz-pBQUDeXa4iI7ADYaOWF3qctBD_YfIAFa0" := by decide

example : (file_hash_record "abc").2 = 3 := by decide

/-- Join strings with newlines (`"\n".join(lines)`, line 238 and 350). -/
def joinNL : List String → String
  | [] => ""
  | [x] => x
  | x :: y :: rest => x ++ "\n" ++ joinNL (y :: rest)

/-- `generate_metadata_file`'s returned document (line 238). -/
def generate_metadata_file (package_name version : String) (include_real_deps : Bool)
    (real_meta : Option RealMeta) : String :=
  joinNL (generateMetadataLines package_name version include_real_deps real_meta)

/-- The stub `__init__.py` body (lines 268-306), with the f-string splices
applied. -/
def initContent (package_name version : String) : String :=
  "# -*- coding: utf-8 -*-\n\"\"\"\nDummy " ++ package_name
    ++ " package - stub generated by PyPI Proxy.\n\nThis is NOT the real " ++ package_name
    ++ " package. It's a minimal stub\nto satisfy dependency requirements without the full installation.\n\"\"\"\n\n__version__ = \""
    ++ version
    ++ "\"\n__author__ = \"PyPI Proxy (stub)\"\n__all__ = [\"__version__\"]\n\n\nclass _StubModule:\n    \"\"\"Stub that raises ImportError on any attribute access.\"\"\"\n    \n    def __init__(self, name):\n        self._name = name\n    \n    def __getattr__(self, attr):\n        raise ImportError(\n            f\"Cannot import '{attr}' from dummy stub package '"
    ++ package_name ++ "'. \"\n            f\"The real '" ++ package_name
    ++ "' package is not installed. \"\n            f\"Install it with: pip install "
    ++ package_name
    ++ "\"\n        )\n    \n    def __call__(self, *args, **kwargs):\n        raise ImportError(\n            f\"Cannot call dummy stub package '"
    ++ package_name ++ "'. \"\n            f\"The real '" ++ package_name
    ++ "' package is not installed.\"\n        )\n\n\n# Make any submodule access fail gracefully with clear error\ndef __getattr__(name):\n    if name.startswith('_'):\n        raise AttributeError(name)\n    return _StubModule(f\""
    ++ package_name ++ ".{name}\")\n"

/-- `package_name.lower().replace('-', '_')` (line 261). -/
def wheelInternalName (package_name : String) : String :=
  String.mk (package_name.data.map (fun c => if c.toLower = '-' then '_' else c.toLower))

/-- `{wheel_name}-{version}.dist-info` (line 262). -/
def distInfoName (package_name version : String) : String :=
  wheelInternalName package_name ++ "-" ++ version ++ ".dist-info"

/-- The `WHEEL` descriptor (lines 316-320). -/
def wheelDescriptor : String :=
  "Wheel-Version: 1.0\nGenerator: pypi-proxy (1.0.0)\nRoot-Is-Purelib: true\nTag: py3-none-any\n"

/-- `direct_url.json` as `json.dumps(..., indent=2)` renders it (lines 332-335). -/
def directUrlContent (wheel_name version : String) : String :=
  "\x7b\n  \"url\": \"http://localhost:8080/packages/" ++ wheel_name ++ "-" ++ version ++
    "-py3-none-any.whl\",\n  \"archive_info\": \x7b\x7d\n\x7d"

/-- The six content files of the wheel, in the insertion order of the
source's `files` dict (lines 264-336); the RECORD is appended after them. -/
def dummyWheelFiles (package_name version : String) (real_meta : Option RealMeta)
    (include_deps : Bool) : List (String × String) :=
  [(wheelInternalName package_name ++ "/__init__.py", initContent package_name version),
   (distInfoName package_name version ++ "/METADATA",
     generate_metadata_file package_name version include_deps real_meta),
   (distInfoName package_name version ++ "/WHEEL", wheelDescriptor),
   (distInfoName package_name version ++ "/top_level.txt",
     wheelInternalName package_name ++ "\n"),
   (distInfoName package_name version ++ "/INSTALLER", "uv\n"),
   (distInfoName package_name version ++ "/direct_url.json",
     directUrlContent (wheelInternalName package_name) version)]

/-- One integrity line `{filepath},{hash_str},{size}` (line 346). -/
def recordLineFor (pc : String × String) : String :=
  pc.1 ++ "," ++ (file_hash_record pc.2).1 ++ "," ++ natStr (file_hash_record pc.2).2

/-- The full file list of the synthesized wheel: the six content files, then
`RECORD` built from their hashes plus its own hashless line (lines 338-351).
The zip archive is written from exactly this list, in this order. -/
def create_dummy_wheel_files (package_name version : String) (real_meta : Option RealMeta)
    (include_deps : Bool) : List (String × String) :=
  let files := dummyWheelFiles package_name version real_meta include_deps
  let record_lines := files.map recordLineFor ++ [distInfoName package_name version ++ "/RECORD,,"]
  let record_content := joinNL record_lines ++ "\n"
  files ++ [(distInfoName package_name version ++ "/RECORD", record_content)]

/-- C2: in every synthesized wheel, the RECORD file is the last entry; its
body is one line per preceding entry of the form
`path,sha256=<digest>,<length>` — the digest being the padding-stripped
URL-safe base64 of the SHA-256 of that entry's exact UTF-8 bytes, the
length its exact byte count — followed by RECORD's own line with empty hash
and length fields; and the paths RECORD lists are exactly the files of the
archive, RECORD included. -/
theorem wheel_record_invariants (package_name version : String)
    (real_meta : Option RealMeta) (include_deps : Bool) :
    let all := create_dummy_wheel_files package_name version real_meta include_deps
    let files := dummyWheelFiles package_name version real_meta include_deps
    let recPath := distInfoName package_name version ++ "/RECORD"
    all.getLast? =
      some (recPath, joinNL (files.map recordLineFor ++ [recPath ++ ",,"]) ++ "\n") ∧
    all.dropLast = files ∧
    (∀ pc ∈ files, recordLineFor pc =
      pc.1 ++ "," ++ ("sha256=" ++ b64urlNoPad (sha256 (utf8Bytes pc.2))) ++ "," ++
        natStr (utf8Bytes pc.2).length) ∧
    (files.map recordLineFor ++ [recPath ++ ",,"]).length = all.length ∧
    all.map Prod.fst = files.map Prod.fst ++ [recPath] := by
  have hline : (distInfoName package_name version ++ "/RECORD") ++ ",," =
      distInfoName package_name version ++ "/RECORD,," := by
    apply String.ext
    simp only [String.data_append, List.append_assoc]
    rfl
  simp only [create_dummy_wheel_files, hline]
  refine ⟨?_, ?_, ?_, ?_, ?_⟩
  · exact List.getLast?_concat _
  · exact List.dropLast_concat
  · intro pc hpc
    rfl
  · simp
  · simp

/-- Witness for C2 at the `INSTALLER` entry of a concrete wheel: its RECORD
line is its path, the digest of its exact bytes, and its byte count. -/
theorem wheel_record_invariants_witness :
    recordLineFor (distInfoName "torch" "1.0" ++ "/INSTALLER", "uv\n") =
      (distInfoName "torch" "1.0" ++ "/INSTALLER") ++ "," ++
        ("sha256=" ++ b64urlNoPad (sha256 (utf8Bytes "uv\n"))) ++ "," ++
        natStr (utf8Bytes "uv\n").length := by
  have h := wheel_record_invariants "torch" "1.0" none false
  refine h.2.2.1 _ ?_
  unfold dummyWheelFiles
  exact List.mem_cons_of_mem _ (List.mem_cons_of_mem _ (List.mem_cons_of_mem _
    (List.mem_cons_of_mem _ (List.mem_cons_self _ _))))
